import Mathlib

/-!
Verification of the two source-rewriting scripts of the midcurve-finance
repository:

* `apps/midcurve-ui/scripts/fix-service-lazy-init.py` (namespace `LazyInit`)
* `packages/midcurve-services/scripts/update-prisma-imports.py`
  (namespace `PrismaImports`)

File contents are modelled as `List Char`.  Each `re.sub`/`re.finditer`
call of the source is embedded as a left-to-right scanner that at every
position either fires (consuming the regex match and emitting the
replacement) or copies one character, exactly the semantics of Python's
non-overlapping leftmost regex substitution.  The scanners are written
over a common fuel-indexed driver `scanGo` so that they are structurally
recursive and evaluate inside the kernel.  Python's `\w` and `\s` are
modelled by their ASCII meaning, which covers every string the scripts
manipulate.
-/

set_option maxRecDepth 100000

namespace Rw

/-- ASCII model of Python regex `\w`. -/
def isWordChar (c : Char) : Bool := c.isAlphanum || c == '_'

/-- ASCII model of Python regex `\s` and of `str.strip`'s whitespace. -/
def isSpaceChar (c : Char) : Bool :=
  c == ' ' || c == '\t' || c == '\n' || c == '\r' || c == '\x0b' || c == '\x0c'

/-- Python's substring test `pat in s`. -/
def containsStr (pat : List Char) : List Char → Bool
  | [] => pat.isPrefixOf []
  | c :: rest => pat.isPrefixOf (c :: rest) || containsStr pat rest

/-- The generic fuel-indexed rewriting scanner.  `step st l` either fires,
returning the emitted replacement, the state after the match and the rest
of the input after the match, or declines, in which case one character is
copied and the state is updated with it. -/
def scanGo {σ : Type} (step : σ → List Char → Option (List Char × σ × List Char))
    (upd : σ → Char → σ) : Nat → σ → List Char → List Char
  | 0, _, _ => []
  | Nat.succ _, _, [] => []
  | Nat.succ f, st, c :: rest =>
    match step st (c :: rest) with
    | some (out, st2, r) => out ++ scanGo step upd f st2 r
    | none => c :: scanGo step upd f (upd st c) rest

/-- A step function is adequate when a fired match always consumes at
least one character. -/
def StepOk {σ : Type} (step : σ → List Char → Option (List Char × σ × List Char)) : Prop :=
  ∀ st l out st2 r, step st l = some (out, st2, r) → r.length < l.length

/-- Run a scanner with exactly enough fuel. -/
def runScan {σ : Type} (step : σ → List Char → Option (List Char × σ × List Char))
    (upd : σ → Char → σ) (st : σ) (l : List Char) : List Char :=
  scanGo step upd l.length st l

/-- Decidable check that the scanner fires nowhere while it moves through
`pre` (with `rest` lying beyond it). -/
def noFireThrough {σ : Type} (step : σ → List Char → Option (List Char × σ × List Char))
    (upd : σ → Char → σ) (st : σ) : List Char → List Char → Bool
  | [], _ => true
  | c :: p, rest => (step st (c :: (p ++ rest))).isNone && noFireThrough step upd (upd st c) p rest

/-- Separation of a fixed string `s` from every possible match text `mt`
of a scanner: no nonempty suffix of a match text is a prefix of `s` or
vice versa, and `s` never starts strictly inside a match text.  Under
this condition an occurrence of `s` can never overlap a fired match, so
scanning preserves it (`runScan_contains`). -/
def Separated (P : List Char → Prop) (s : List Char) : Prop :=
  (∀ mt, P mt → ∀ o, o < mt.length → ¬ (s <+: mt.drop o) ∧ ¬ (mt.drop o <+: s)) ∧
  (∀ mt, P mt → ∀ k, k < s.length → ¬ (s.drop k <+: mt) ∧ ¬ (mt <+: s.drop k))

/-- A scanner's matches all have shape `mt` satisfying `P`. -/
def ShapeOk {σ : Type} (step : σ → List Char → Option (List Char × σ × List Char))
    (P : List Char → Prop) : Prop :=
  ∀ st l out st2 r, step st l = some (out, st2, r) → ∃ mt, l = mt ++ r ∧ P mt

/-- Python's `content.split('\n')`. -/
def splitNl : List Char → List (List Char)
  | [] => [[]]
  | c :: rest =>
    if c = '\n' then [] :: splitNl rest
    else
      match splitNl rest with
      | [] => [[c]]
      | h :: t => (c :: h) :: t

/-- Python's `sep.join(parts)`. -/
def joinSep (sep : List Char) : List (List Char) → List Char
  | [] => []
  | [x] => x
  | x :: rest => x ++ sep ++ joinSep sep rest

/-- Python's `'\n'.join(lines)`. -/
def joinNl (lines : List (List Char)) : List Char := joinSep ['\n'] lines

/-- Python's `list.insert(n, x)` (clamping at the end, as Python does). -/
def insertAt {α : Type} : Nat → α → List α → List α
  | 0, x, l => x :: l
  | _+1, x, [] => [x]
  | n+1, x, y :: ys => y :: insertAt n x ys

/-- Python's `line.startswith('import ')`. -/
def isImportLine (l : List Char) : Bool := ("import ".toList).isPrefixOf l

/-- The loop `for i, line in enumerate(lines): if line.startswith('import '):
insert_idx = i + 1` with initial index `0`, shared by both scripts. -/
def lastImportIdxAux : Nat → Nat → List (List Char) → Nat
  | _, acc, [] => acc
  | i, acc, ln :: rest => lastImportIdxAux (i+1) (if isImportLine ln then i + 1 else acc) rest

def lastImportIdx (lines : List (List Char)) : Nat := lastImportIdxAux 0 0 lines

/-- Split on lines, insert `line` one past the last import line, rejoin:
the import-insertion logic shared by both scripts. -/
def insertImportLine (line content : List Char) : List Char :=
  joinNl (insertAt (lastImportIdx (splitNl content)) line (splitNl content))

/-- `re.sub(r'\n\n\n+', '\n\n', content)`: the blank-line normalization
step shared by both scripts. -/
def nlStep (_ : Unit) (l : List Char) : Option (List Char × Unit × List Char) :=
  match l with
  | '\n' :: '\n' :: '\n' :: r => some (['\n', '\n'], (), r.dropWhile (fun c => c == '\n'))
  | _ => none

def unitUpd (_ : Unit) (_ : Char) : Unit := ()

def collapseNl (content : List Char) : List Char := runScan nlStep unitUpd () content

/-- `p.isPrefixOf l` success: match the literal string `p` and return the rest. -/
def expectStr (p l : List Char) : Option (List Char) :=
  if p.isPrefixOf l then some (l.drop p.length) else none

/-- Regex `\w+` (maximal run and the rest). -/
def takeWord (l : List Char) : List Char × List Char :=
  (l.takeWhile isWordChar, l.dropWhile isWordChar)

/-- Regex `\s+`: at least one whitespace character, maximal. -/
def skipSpaces1 (l : List Char) : Option (List Char) :=
  match l with
  | c :: r => if isSpaceChar c then some (r.dropWhile isSpaceChar) else none
  | [] => none

/-- The optional trailing `;?` of a regex match. -/
def dropSemi : List Char → List Char
  | ';' :: t => t
  | l => l

end Rw

/-! The `apps/midcurve-ui/scripts/fix-service-lazy-init.py` script. -/

namespace LazyInit

open Rw

/-- The `SERVICE_GETTERS` table of the script. -/
def SERVICE_GETTERS : List (List Char × List Char) :=
  [ ("AuthUserService".toList, "getAuthUserService".toList),
    ("AuthNonceService".toList, "getAuthNonceService".toList),
    ("AuthApiKeyService".toList, "getAuthApiKeyService".toList),
    ("Erc20TokenService".toList, "getErc20TokenService".toList),
    ("UserTokenBalanceService".toList, "getUserTokenBalanceService".toList),
    ("UniswapV3PoolService".toList, "getUniswapV3PoolService".toList),
    ("UniswapV3PoolDiscoveryService".toList, "getUniswapV3PoolDiscoveryService".toList),
    ("UniswapV3PositionService".toList, "getUniswapV3PositionService".toList),
    ("UniswapV3PositionLedgerService".toList, "getUniswapV3PositionLedgerService".toList),
    ("PositionListService".toList, "getPositionListService".toList),
    ("PositionAprService".toList, "getPositionAprService".toList) ]

def lookupGetter (cls : List Char) : Option (List Char) :=
  List.lookup cls SERVICE_GETTERS

/-- A match of `inst_pattern = r'const\s+(\w+)\s*=\s*new\s+(\w+Service)\(\);?'`
at the head of `l`: the two groups and the rest of the input after the
match.  `(\w+Service)\(` forces the whole maximal word run to end in
`Service` with at least one character in front. -/
def matchInst (l : List Char) : Option (List Char × List Char × List Char) :=
  match expectStr ("const".toList) l with
  | none => none
  | some r1 =>
    match skipSpaces1 r1 with
    | none => none
    | some r2 =>
      match takeWord r2 with
      | ([], _) => none
      | (v, r3) =>
        match expectStr ("=".toList) (r3.dropWhile isSpaceChar) with
        | none => none
        | some r5 =>
          match expectStr ("new".toList) (r5.dropWhile isSpaceChar) with
          | none => none
          | some r7 =>
            match skipSpaces1 r7 with
            | none => none
            | some r8 =>
              match takeWord r8 with
              | (cls, r9) =>
                if ("Service".toList).isSuffixOf cls && decide (8 ≤ cls.length) then
                  match expectStr ("()".toList) r9 with
                  | none => none
                  | some r10 => some (v, cls, dropSemi r10)
                else none

/-- `re.finditer(inst_pattern, content)`: the `(var, class)` groups of the
non-overlapping matches, left to right. -/
def findInstsGo : Nat → List Char → List (List Char × List Char)
  | 0, _ => []
  | Nat.succ _, [] => []
  | Nat.succ f, c :: rest =>
    match matchInst (c :: rest) with
    | some (v, cls, r) => (v, cls) :: findInstsGo f r
    | none => findInstsGo f rest

def findInsts (content : List Char) : List (List Char × List Char) :=
  findInstsGo content.length content

/-- Python dict assignment `d[k] = v`: update in place, append when new. -/
def dictInsert (key val : List Char) : List (List Char × List Char) → List (List Char × List Char)
  | [] => [(key, val)]
  | (k, v) :: rest => if k = key then (k, val) :: rest else (k, v) :: dictInsert key val rest

/-- The step-1 loop of `fix_file`: `var_to_service[var_name] = service_class`
for every match whose class is a key of `SERVICE_GETTERS`. -/
def buildVtsAux (acc : List (List Char × List Char)) :
    List (List Char × List Char) → List (List Char × List Char)
  | [] => acc
  | (v, cls) :: rest =>
    buildVtsAux (if (lookupGetter cls).isSome then dictInsert v cls acc else acc) rest

def var_to_service (content : List Char) : List (List Char × List Char) :=
  buildVtsAux [] (findInsts content)

/-- The getters `used_getters` collects, one per mapped match (as a list;
the script's set only ever feeds `sorted(...)`). -/
def used_getters (content : List Char) : List (List Char) :=
  (findInsts content).filterMap (fun p => lookupGetter p.2)

/-- Python string comparison: lexicographic on code points. -/
def lexLt : List Char → List Char → Bool
  | [], [] => false
  | [], _ :: _ => true
  | _ :: _, [] => false
  | a :: as_, b :: bs =>
    if a.toNat < b.toNat then true
    else if b.toNat < a.toNat then false
    else lexLt as_ bs

/-- Insert into a strictly sorted list, dropping duplicates. -/
def insSorted (x : List Char) : List (List Char) → List (List Char)
  | [] => [x]
  | y :: ys =>
    if lexLt x y then x :: y :: ys
    else if x = y then y :: ys
    else y :: insSorted x ys

/-- `sorted(set(...))` of Python. -/
def sortDedup : List (List Char) → List (List Char)
  | [] => []
  | x :: xs => insSorted x (sortDedup xs)

/-- Step 2 of `fix_file`: one `re.sub(rf'\b{var}\.(\w+)', rf'{getter}().\1', …)`.
`prevW` is true when the previous character is a word character, so that
`¬ prevW` is the `\b` of the pattern (the variable starts with a word
character). -/
def callStep (v g : List Char) (prevW : Bool) (l : List Char) :
    Option (List Char × Bool × List Char) :=
  if prevW then none
  else if v.isPrefixOf l then
    match l.drop v.length with
    | '.' :: r2 =>
      if (r2.takeWhile isWordChar).isEmpty then none
      else some (g ++ ("()".toList) ++ '.' :: r2.takeWhile isWordChar, true,
        r2.dropWhile isWordChar)
    | _ => none
  else none

def wordUpd (_ : Bool) (c : Char) : Bool := isWordChar c

def replaceCalls (v g content : List Char) : List Char :=
  runScan (callStep v g) wordUpd false content

/-- The step-2 loop over `var_to_service.items()`, in dict order. -/
def applyCalls : List (List Char × List Char) → List Char → List Char
  | [], content => content
  | (v, cls) :: rest, content =>
    match lookupGetter cls with
    | some g => applyCalls rest (replaceCalls v g content)
    | none => applyCalls rest content

/-- Step 3 of `fix_file`: `re.sub(inst_pattern, '', content)`. -/
def instStep (_ : Unit) (l : List Char) : Option (List Char × Unit × List Char) :=
  (matchInst l).map (fun p => ([], (), p.2.2))

def removeInsts (content : List Char) : List Char := runScan instStep unitUpd () content

/-- A match of `import_pattern =
r"import\s*\{([^}]+)\}\s*from\s*'@midcurve/services';"` at the head of
`l`: the group (the text between the braces) and the rest. -/
def matchImportStmt (l : List Char) : Option (List Char × List Char) :=
  match expectStr ("import".toList) l with
  | none => none
  | some r1 =>
    match r1.dropWhile isSpaceChar with
    | '\x7b' :: r3 =>
      if (r3.takeWhile (fun c => c != '\x7d')).isEmpty then none
      else
        match r3.dropWhile (fun c => c != '\x7d') with
        | '\x7d' :: r4 =>
          match expectStr ("from".toList) (r4.dropWhile isSpaceChar) with
          | none => none
          | some r6 =>
            (expectStr ("'@midcurve/services';".toList) (r6.dropWhile isSpaceChar)).map
              (fun r8 => (r3.takeWhile (fun c => c != '\x7d'), r8))
        | _ => none
    | _ => none

/-- Python's `imp.strip()`. -/
def strip (l : List Char) : List Char :=
  ((l.dropWhile isSpaceChar).reverse.dropWhile isSpaceChar).reverse

/-- Python's `imports.split(',')`. -/
def splitComma : List Char → List (List Char)
  | [] => [[]]
  | c :: rest =>
    if c = ',' then [] :: splitComma rest
    else
      match splitComma rest with
      | [] => [[c]]
      | h :: t => (c :: h) :: t

/-- The `remove_services` replacement function of the script, applied to
the captured import list. -/
def remove_services (toRemove : List (List Char)) (inner : List Char) : List Char :=
  let import_list := (splitComma inner).map strip
  let remaining := import_list.filter (fun imp => !(toRemove.contains imp))
  if remaining.isEmpty then []
  else
    ("import \x7b ".toList) ++ Rw.joinSep (", ".toList) remaining ++
      (" \x7d from '@midcurve/services';".toList)

/-- Step 4 of `fix_file`: `re.sub(import_pattern, remove_services, content)`. -/
def importStep (toRemove : List (List Char)) (_ : Unit) (l : List Char) :
    Option (List Char × Unit × List Char) :=
  (matchImportStmt l).map (fun p => (remove_services toRemove p.1, (), p.2))

def pruneImports (toRemove : List (List Char)) (content : List Char) : List Char :=
  runScan (importStep toRemove) unitUpd () content

/-- The getter import line built in step 5 (after `.rstrip()`). -/
def getter_import (gs : List (List Char)) : List Char :=
  ("import \x7b ".toList) ++ Rw.joinSep (", ".toList) gs ++
    (" \x7d from '@/lib/services';".toList)

/-- The guard string of step 0. -/
def lazyGuard (content : List Char) : Bool :=
  containsStr ("from '@/lib/services'".toList) content

/-- Steps 2-4 of `fix_file` chained: the content just before the import
insertion of step 5. -/
def preInsert (content : List Char) : List Char :=
  pruneImports ((var_to_service content).map Prod.snd)
    (removeInsts (applyCalls (var_to_service content) content))

/-- The pure text-to-text transformation of `fix_file` (everything except
the final write-back). -/
def rewrite (content : List Char) : List Char :=
  if lazyGuard content then content
  else if (var_to_service content).isEmpty then content
  else
    let gs := sortDedup (used_getters content)
    collapseNl
      (if gs.isEmpty then preInsert content
       else insertImportLine (getter_import gs) (preInsert content))

/-- `fix_file`: the returned flag and the file's content on disk after the
call (written back exactly when the transformed text differs). -/
def fix_file (content : List Char) : Bool × List Char :=
  let t := rewrite content
  if t = content then (false, content) else (true, t)

end LazyInit

/-! The `packages/midcurve-services/scripts/update-prisma-imports.py` script. -/

namespace PrismaImports

open Rw

/-- A quote character, the regex class `['\"]`. -/
def isQuote (c : Char) : Bool := c == '\'' || c == '"'

/-- The guard of `fix_file`: the file already uses `@midcurve/database`
(in either quoting style). -/
def dbGuard (content : List Char) : Bool :=
  containsStr ("from '@midcurve/database'".toList) content ||
    containsStr ("from \"@midcurve/database\"".toList) content

/-- Pattern 1, `re.sub(r"from ['\"]@prisma/client['\"]",
"from '@midcurve/database'", content)`: a match at the head of `l`. -/
def fromStep (_ : Unit) (l : List Char) : Option (List Char × Unit × List Char) :=
  match expectStr ("from ".toList) l with
  | none => none
  | some (q1 :: r2) =>
    if isQuote q1 then
      match expectStr ("@prisma/client".toList) r2 with
      | none => none
      | some (q2 :: r4) =>
        if isQuote q2 then some (("from '@midcurve/database'".toList), (), r4) else none
      | some [] => none
    else none
  | some [] => none

def replaceFromPrisma (content : List Char) : List Char :=
  runScan fromStep unitUpd () content

/-- The two quoting styles of the substring test for pattern 2. -/
def hasRequire (content : List Char) : Bool :=
  containsStr ("require('@prisma/client').PrismaClient".toList) content ||
    containsStr ("require(\"@prisma/client\").PrismaClient".toList) content

/-- `"import \x7b prisma" in content` (written with the literal brace). -/
def hasPrismaImport (content : List Char) : Bool :=
  containsStr ("import \x7b prisma".toList) content

/-- The inserted singleton import line. -/
def prismaImportLine : List Char :=
  "import \x7b prisma \x7d from '@midcurve/database';".toList

/-- The require-expression pattern
`new \(require\(['\"]@prisma/client['\"]\)\.PrismaClient\)\(\) as PrismaClient`:
a match at the head of `l`, replaced by `prisma`. -/
def reqStep (_ : Unit) (l : List Char) : Option (List Char × Unit × List Char) :=
  match expectStr ("new (require(".toList) l with
  | none => none
  | some (q1 :: r2) =>
    if isQuote q1 then
      match expectStr ("@prisma/client".toList) r2 with
      | none => none
      | some (q2 :: r4) =>
        if isQuote q2 then
          match expectStr (").PrismaClient)() as PrismaClient".toList) r4 with
          | none => none
          | some r5 => some (("prisma".toList), (), r5)
        else none
      | some [] => none
    else none
  | some [] => none

def replaceRequireExpr (content : List Char) : List Char :=
  runScan reqStep unitUpd () content

/-- The text a pattern-1 match consumes, with its two quote characters. -/
def fromMatchText (q1 q2 : Char) : List Char :=
  ("from ".toList) ++ q1 :: ("@prisma/client".toList) ++ [q2]

/-- The text a require-expression match consumes, with its two quote
characters. -/
def reqMatchText (q1 q2 : Char) : List Char :=
  ("new (require(".toList) ++ q1 :: ("@prisma/client".toList) ++
    q2 :: (").PrismaClient)() as PrismaClient".toList)

/-- The pattern-2 block of `fix_file`: insert the singleton import when
absent, then replace the require expression. -/
def requireBlock (c1 : List Char) : List Char :=
  if hasRequire c1 then
    replaceRequireExpr
      (if hasPrismaImport c1 then c1 else insertImportLine prismaImportLine c1)
  else c1

/-- The pure text-to-text transformation of the prisma `fix_file`. -/
def rewrite (content : List Char) : List Char :=
  if dbGuard content then content
  else collapseNl (requireBlock (replaceFromPrisma content))

/-- `fix_file`: returned flag and the on-disk content after the call. -/
def fix_file (content : List Char) : Bool × List Char :=
  let t := rewrite content
  if t = content then (false, content) else (true, t)

end PrismaImports

/-! Theorems: general lemmas about the embedding. -/

namespace Rw

theorem containsStr_infix_iff (pat l : List Char) :
    containsStr pat l = true ↔ pat <:+: l := by
  induction l with
  | nil =>
    simp [containsStr, List.isPrefixOf_iff_prefix, List.infix_iff_prefix_suffix]
  | cons c rest ih =>
    simp [containsStr, List.isPrefixOf_iff_prefix, ih, List.infix_cons_iff]

theorem containsStr_of_append_right (pat a b : List Char)
    (h : containsStr pat b = true) : containsStr pat (a ++ b) = true := by
  rw [containsStr_infix_iff] at h ⊢
  exact h.trans (List.suffix_append a b).isInfix

theorem containsStr_cons_of (pat : List Char) (c : Char) (l : List Char)
    (h : containsStr pat l = true) : containsStr pat (c :: l) = true := by
  simp [containsStr, h]

theorem containsStr_of_infix {pat s l : List Char}
    (hps : pat <:+: s) (hsl : s <:+: l) : containsStr pat l = true := by
  rw [containsStr_infix_iff]; exact hps.trans hsl

theorem scanGo_nil {σ : Type} (step : σ → List Char → Option (List Char × σ × List Char))
    (upd : σ → Char → σ) (f : Nat) (st : σ) : scanGo step upd f st [] = [] := by
  cases f <;> rfl

theorem scanGo_fuel {σ : Type} {step : σ → List Char → Option (List Char × σ × List Char)}
    {upd : σ → Char → σ} (hok : StepOk step) :
    ∀ (f g : Nat) (st : σ) (l : List Char), l.length ≤ f → l.length ≤ g →
      scanGo step upd f st l = scanGo step upd g st l := by
  intro f
  induction f with
  | zero =>
    intro g st l hf _
    have : l = [] := List.length_eq_zero.mp (Nat.le_zero.mp hf)
    subst this
    rw [scanGo_nil, scanGo_nil]
  | succ f ih =>
    intro g st l hf hg
    cases l with
    | nil => rw [scanGo_nil, scanGo_nil]
    | cons c rest =>
      cases g with
      | zero => simp at hg
      | succ g =>
        show scanGo step upd (f+1) st (c :: rest) = scanGo step upd (g+1) st (c :: rest)
        simp only [scanGo]
        cases hstep : step st (c :: rest) with
        | none =>
          have := ih g (upd st c) rest (Nat.le_of_succ_le_succ hf) (Nat.le_of_succ_le_succ hg)
          simp [this]
        | some v =>
          obtain ⟨out, st2, r⟩ := v
          have hr := hok st (c :: rest) out st2 r hstep
          have hrf : r.length ≤ f := by
            have := Nat.lt_of_lt_of_le hr hf; omega
          have hrg : r.length ≤ g := by
            have := Nat.lt_of_lt_of_le hr hg; omega
          simp [ih g st2 r hrf hrg]

theorem runScan_append {σ : Type} {step : σ → List Char → Option (List Char × σ × List Char)}
    {upd : σ → Char → σ} :
    ∀ (pre rest : List Char) (st : σ), noFireThrough step upd st pre rest = true →
      runScan step upd st (pre ++ rest) = pre ++ runScan step upd (pre.foldl upd st) rest := by
  intro pre
  induction pre with
  | nil => intro rest st _; simp
  | cons c p ih =>
    intro rest st hnf
    simp only [noFireThrough, Bool.and_eq_true, Option.isNone_iff_eq_none] at hnf
    obtain ⟨hnone, hrest⟩ := hnf
    show scanGo step upd ((c :: p ++ rest).length) st (c :: (p ++ rest)) = _
    simp only [List.length_cons, scanGo, hnone, List.append_eq]
    have := ih rest (upd st c) hrest
    simp only [runScan] at this
    rw [this]
    simp only [List.foldl_cons, List.cons_append, runScan]

theorem prefix_total {α : Type} {l a b : List α} (ha : a <+: l) (hb : b <+: l) :
    a <+: b ∨ b <+: a := by
  rcases Nat.le_total a.length b.length with h | h
  · exact Or.inl (List.prefix_of_prefix_length_le ha hb h)
  · exact Or.inr (List.prefix_of_prefix_length_le hb ha h)

theorem scanGo_pre_stable {σ : Type} {step : σ → List Char → Option (List Char × σ × List Char)}
    {upd : σ → Char → σ} {P : List Char → Prop} {s : List Char}
    (hshape : ShapeOk step P) (hsep : Separated P s) :
    ∀ (f : Nat) (st : σ) (l : List Char) (k : Nat), l.length ≤ f →
      s.drop k <+: l → s.drop k <+: scanGo step upd f st l := by
  intro f
  induction f with
  | zero =>
    intro st l k hf hp
    have : l = [] := List.length_eq_zero.mp (Nat.le_zero.mp hf)
    subst this
    simpa [scanGo_nil] using hp
  | succ f ih =>
    intro st l k hf hp
    cases l with
    | nil => simpa [scanGo_nil] using hp
    | cons c rest =>
      by_cases hk : s.length ≤ k
      · have : s.drop k = [] := List.drop_eq_nil_of_le hk
        rw [this]
        exact List.nil_prefix
      push_neg at hk
      show s.drop k <+: scanGo step upd (f+1) st (c :: rest)
      simp only [scanGo]
      cases hstep : step st (c :: rest) with
      | some v =>
        obtain ⟨out, st2, r⟩ := v
        obtain ⟨mt, heq, hP⟩ := hshape st (c :: rest) out st2 r hstep
        rw [heq] at hp
        have hmtpre : mt <+: mt ++ r := List.prefix_append mt r
        rcases prefix_total hp hmtpre with h | h
        · exact absurd h (hsep.2 mt hP k hk).1
        · exact absurd h (hsep.2 mt hP k hk).2
      | none =>
        have hd : s.drop k = s.get ⟨k, hk⟩ :: s.drop (k+1) := List.drop_eq_getElem_cons hk
        rw [hd] at hp
        rcases List.cons_prefix_cons.mp hp with ⟨hc, htail⟩
        rw [hd, hc]
        exact (List.cons_prefix_cons).mpr
          ⟨rfl, ih (upd st c) rest (k+1) (Nat.le_of_succ_le_succ hf) htail⟩

theorem infix_append_cases {s a b : List Char} (h : s <:+: a ++ b) :
    (∃ o, o < a.length ∧ s <+: (a.drop o ++ b)) ∨ s <:+: b := by
  induction a with
  | nil => right; simpa using h
  | cons c a' ih =>
    rcases List.infix_cons_iff.mp h with hpre | hinf
    · left; exact ⟨0, by simp, by simpa using hpre⟩
    · rcases ih hinf with ⟨o, ho, hp⟩ | hb
      · left; exact ⟨o + 1, by simpa using Nat.succ_lt_succ ho, by simpa using hp⟩
      · right; exact hb

theorem scanGo_contains {σ : Type} {step : σ → List Char → Option (List Char × σ × List Char)}
    {upd : σ → Char → σ} {P : List Char → Prop} {s : List Char}
    (hok : StepOk step) (hshape : ShapeOk step P) (hsep : Separated P s)
    (hs : s ≠ []) :
    ∀ (f : Nat) (st : σ) (l : List Char), l.length ≤ f →
      containsStr s l = true → containsStr s (scanGo step upd f st l) = true := by
  intro f
  induction f with
  | zero =>
    intro st l hf hc
    have : l = [] := List.length_eq_zero.mp (Nat.le_zero.mp hf)
    subst this
    rw [containsStr_infix_iff] at hc
    have := List.eq_nil_of_infix_nil hc
    exact absurd this hs
  | succ f ih =>
    intro st l hf hc
    cases l with
    | nil =>
      rw [containsStr_infix_iff] at hc
      have := List.eq_nil_of_infix_nil hc
      exact absurd this hs
    | cons c rest =>
      show containsStr s (scanGo step upd (f+1) st (c :: rest)) = true
      simp only [scanGo]
      cases hstep : step st (c :: rest) with
      | some v =>
        obtain ⟨out, st2, r⟩ := v
        obtain ⟨mt, heq, hP⟩ := hshape st (c :: rest) out st2 r hstep
        have hr := hok st (c :: rest) out st2 r hstep
        rw [heq] at hc
        rw [containsStr_infix_iff] at hc
        rcases infix_append_cases hc with ⟨o, ho, hp⟩ | hb
        · exfalso
          have hdp : mt.drop o <+: mt.drop o ++ r := List.prefix_append _ r
          rcases prefix_total hp hdp with h | h
          · exact (hsep.1 mt hP o ho).1 h
          · exact (hsep.1 mt hP o ho).2 h
        · have hrf : r.length ≤ f := by
            have := Nat.lt_of_lt_of_le hr hf; omega
          have := ih st2 r hrf (by rw [containsStr_infix_iff]; exact hb)
          exact containsStr_of_append_right s out _ this
      | none =>
        simp only [containsStr, Bool.or_eq_true] at hc
        rcases hc with hpre | hrest
        · rw [List.isPrefixOf_iff_prefix] at hpre
          cases s with
          | nil => exact absurd rfl hs
          | cons d s' =>
            rcases List.cons_prefix_cons.mp hpre with ⟨hd, htail⟩
            have hdrop : (d :: s').drop 1 = s' := rfl
            have := @scanGo_pre_stable σ step upd P (d :: s') hshape hsep f (upd st c) rest 1
              (Nat.le_of_succ_le_succ hf) (by rw [hdrop]; exact htail)
            rw [hdrop] at this
            apply Bool.or_eq_true_iff.mpr
            left
            rw [List.isPrefixOf_iff_prefix]
            rw [hd]
            exact (List.cons_prefix_cons).mpr ⟨rfl, this⟩
        · exact containsStr_cons_of s c _ (ih (upd st c) rest (Nat.le_of_succ_le_succ hf) hrest)

theorem runScan_contains {σ : Type} {step : σ → List Char → Option (List Char × σ × List Char)}
    {upd : σ → Char → σ} {P : List Char → Prop} {s : List Char}
    (hok : StepOk step) (hshape : ShapeOk step P) (hsep : Separated P s)
    (hs : s ≠ []) (st : σ) (l : List Char) (hc : containsStr s l = true) :
    containsStr s (runScan step upd st l) = true :=
  scanGo_contains hok hshape hsep hs l.length st l (Nat.le_refl _) hc

theorem dropWhile_length_le (p : Char → Bool) (l : List Char) :
    (l.dropWhile p).length ≤ l.length :=
  (List.dropWhile_sublist p).length_le

theorem expectStr_length {p l r : List Char} (h : expectStr p l = some r) :
    r.length + p.length = l.length := by
  unfold expectStr at h
  split at h
  · rename_i hpre
    rw [List.isPrefixOf_iff_prefix] at hpre
    have hlen := hpre.length_le
    simp only [Option.some.injEq] at h
    subst h
    simp [List.length_drop]
    omega
  · exact absurd h (by simp)

theorem expectStr_append (p x : List Char) : expectStr p (p ++ x) = some x := by
  unfold expectStr
  rw [if_pos (List.isPrefixOf_iff_prefix.mpr (List.prefix_append p x))]
  simp [List.drop_left]

theorem expectStr_some_eq {p l r : List Char} (h : expectStr p l = some r) : l = p ++ r := by
  unfold expectStr at h
  split at h
  · rename_i hpre
    rw [List.isPrefixOf_iff_prefix] at hpre
    obtain ⟨t, rfl⟩ := hpre
    simp only [Option.some.injEq] at h
    rw [← h, List.drop_left]
  · exact absurd h (by simp)

theorem runScan_fire {σ : Type} {step : σ → List Char → Option (List Char × σ × List Char)}
    {upd : σ → Char → σ} (hok : StepOk step) {st : σ} {l out : List Char} {st2 : σ}
    {r : List Char} (h : step st l = some (out, st2, r)) (hl : l ≠ []) :
    runScan step upd st l = out ++ runScan step upd st2 r := by
  obtain ⟨c, t, rfl⟩ := List.exists_cons_of_ne_nil hl
  show scanGo step upd ((c :: t).length) st (c :: t) = _
  simp only [List.length_cons, scanGo, h]
  have hr := hok st (c :: t) out st2 r h
  simp only [List.length_cons] at hr
  congr 1
  exact scanGo_fuel hok t.length r.length st2 r (by omega) (Nat.le_refl _)

theorem skipSpaces1_length {l r : List Char} (h : skipSpaces1 l = some r) :
    r.length < l.length := by
  cases l with
  | nil => simp [skipSpaces1] at h
  | cons c t =>
    obtain ⟨-, h2⟩ : isSpaceChar c = true ∧ t.dropWhile isSpaceChar = r := by
      simpa [skipSpaces1] using h
    simp only [List.length_cons, ← h2]
    exact Nat.lt_succ_of_le (dropWhile_length_le _ t)

theorem dropSemi_length_le (l : List Char) : (dropSemi l).length ≤ l.length := by
  unfold dropSemi
  split
  · simp
  · exact Nat.le_refl _

theorem dropWhile_head_false {p : Char → Bool} {t : List Char} {d : Char} {y : List Char}
    (h : t.dropWhile p = d :: y) : p d = false := by
  induction t with
  | nil => simp [List.dropWhile] at h
  | cons a t' ih =>
    rw [List.dropWhile_cons] at h
    split at h
    · exact ih h
    · rename_i ha
      injection h with h1 _
      subst h1
      exact Bool.not_eq_true _ ▸ (by simpa using ha)

theorem nlStep_some_inv {st : Unit} {l out : List Char} {st2 : Unit} {r : List Char}
    (h : nlStep st l = some (out, st2, r)) :
    ∃ t, l = '\n' :: '\n' :: '\n' :: t ∧ out = ['\n', '\n'] ∧
      r = t.dropWhile (fun c => c == '\n') := by
  unfold nlStep at h
  split at h
  · rename_i t
    simp only [Option.some.injEq, Prod.mk.injEq] at h
    obtain ⟨h1, -, h3⟩ := h
    exact ⟨t, rfl, h1.symm, h3.symm⟩
  · exact absurd h (by simp)

theorem nlStep_ok : StepOk nlStep := by
  intro st l out st2 r h
  obtain ⟨t, rfl, -, hr⟩ := nlStep_some_inv h
  subst hr
  have := dropWhile_length_le (fun c => c == '\n') t
  simp only [List.length_cons]
  omega

theorem nlStep_fire (st : Unit) (t : List Char) :
    nlStep st ('\n' :: '\n' :: '\n' :: t) =
      some (['\n', '\n'], (), t.dropWhile (fun c => c == '\n')) := rfl

theorem nlStep_shape :
    ShapeOk nlStep (fun mt => ∃ k, 3 ≤ k ∧ mt = List.replicate k '\n') := by
  intro st l out st2 r h
  obtain ⟨t, rfl, -, hr⟩ := nlStep_some_inv h
  refine ⟨'\n' :: '\n' :: '\n' :: t.takeWhile (fun c => c == '\n'), ?_, ?_⟩
  · rw [hr]
    simp [List.takeWhile_append_dropWhile]
  · refine ⟨('\n' :: '\n' :: '\n' :: t.takeWhile (fun c => c == '\n')).length, ?_, ?_⟩
    · simp only [List.length_cons]
      omega
    · refine List.eq_replicate_of_mem ?_
      intro b hb
      simp only [List.mem_cons] at hb
      rcases hb with rfl | rfl | rfl | hb
      · rfl
      · rfl
      · rfl
      · have := List.mem_takeWhile_imp hb
        simpa using this

theorem not_prefix_replicate_nl {s : List Char} (hne : s ≠ []) (hnl : '\n' ∉ s)
    (m : Nat) : ¬ (s <+: List.replicate m '\n') := by
  intro hp
  obtain ⟨c, hc⟩ := List.exists_mem_of_ne_nil s hne
  have hcr := hp.subset hc
  have := List.eq_of_mem_replicate hcr
  subst this
  exact hnl hc

theorem replicate_nl_not_prefix {x : List Char} (hnl : '\n' ∉ x) {m : Nat} (hm : 1 ≤ m) :
    ¬ (List.replicate m '\n' <+: x) := by
  intro hp
  have : '\n' ∈ List.replicate m '\n' := List.mem_replicate.mpr ⟨by omega, rfl⟩
  exact hnl (hp.subset this)

theorem collapse_separated {s : List Char} (hne : s ≠ []) (hnl : '\n' ∉ s) :
    Separated (fun mt => ∃ k, 3 ≤ k ∧ mt = List.replicate k '\n') s := by
  constructor
  · rintro mt ⟨k, hk, rfl⟩ o ho
    rw [List.length_replicate] at ho
    rw [List.drop_replicate]
    exact ⟨not_prefix_replicate_nl hne hnl _, replicate_nl_not_prefix hnl (by omega)⟩
  · rintro mt ⟨k, hk, rfl⟩ j hj
    have hdne : s.drop j ≠ [] := by
      intro h
      rw [List.drop_eq_nil_iff] at h
      omega
    have hnl2 : '\n' ∉ s.drop j := fun h => hnl (List.drop_subset j s h)
    exact ⟨not_prefix_replicate_nl hdne hnl2 _, replicate_nl_not_prefix hnl2 (by omega)⟩

theorem scanGo_nl_head (f : Nat) (st : Unit) (c : Char) (rest : List Char)
    (hf : (c :: rest).length ≤ f) :
    ∃ Y, scanGo nlStep unitUpd f st (c :: rest) = c :: Y := by
  cases f with
  | zero => simp at hf
  | succ f =>
    simp only [scanGo]
    cases hstep : nlStep st (c :: rest) with
    | none => exact ⟨_, rfl⟩
    | some v =>
      obtain ⟨out, st2, r⟩ := v
      obtain ⟨t, heq, hout, -⟩ := nlStep_some_inv hstep
      injection heq with hc _
      subst hc hout
      exact ⟨_, rfl⟩

theorem collapse_no_nl3_aux :
    ∀ (f : Nat) (st : Unit) (l : List Char), l.length ≤ f →
      containsStr ['\n', '\n', '\n'] (scanGo nlStep unitUpd f st l) = false := by
  intro f
  induction f with
  | zero =>
    intro st l hf
    have : l = [] := List.length_eq_zero.mp (Nat.le_zero.mp hf)
    subst this
    rw [scanGo_nil]
    decide
  | succ f ih =>
    intro st l hf
    cases l with
    | nil => rw [scanGo_nil]; decide
    | cons c rest =>
      cases hstep : nlStep st (c :: rest) with
      | some v =>
        obtain ⟨out, st2, r⟩ := v
        obtain ⟨t, heq, hout, hr⟩ := nlStep_some_inv hstep
        subst hout
        simp only [scanGo, hstep]
        have hlen3 : (c :: rest).length = t.length + 3 := by rw [heq]; simp
        have hrlen : r.length ≤ t.length := by
          rw [hr]; exact dropWhile_length_le _ t
        have hXf : r.length ≤ f := by omega
        have hX := ih st2 r hXf
        cases hrc : r with
        | nil =>
          rw [scanGo_nil]
          decide
        | cons d y =>
          have hdt : List.dropWhile (fun c => c == '\n') t = d :: y := by rw [← hr, hrc]
          have hd0 := dropWhile_head_false hdt
          have hdne : d ≠ '\n' := by simpa using hd0
          have hd2 : ('\n' == d) = false := beq_eq_false_iff_ne.mpr (Ne.symm hdne)
          obtain ⟨Y, hY⟩ := scanGo_nl_head f st2 d y (by rw [← hrc]; omega)
          rw [hY]
          rw [hrc, hY] at hX
          have h1 : List.isPrefixOf ['\n', '\n', '\n'] ('\n' :: '\n' :: d :: Y) = false := by
            simp [List.isPrefixOf, hd2]
          have h2 : List.isPrefixOf ['\n', '\n', '\n'] ('\n' :: d :: Y) = false := by
            simp [List.isPrefixOf, hd2]
          show containsStr ['\n', '\n', '\n'] ('\n' :: '\n' :: d :: Y) = false
          rw [show containsStr ['\n', '\n', '\n'] ('\n' :: '\n' :: d :: Y) =
            (List.isPrefixOf ['\n', '\n', '\n'] ('\n' :: '\n' :: d :: Y) ||
              (List.isPrefixOf ['\n', '\n', '\n'] ('\n' :: d :: Y) ||
                containsStr ['\n', '\n', '\n'] (d :: Y))) from rfl]
          rw [h1, h2, hX]
          rfl
      | none =>
        simp only [scanGo, hstep]
        have hW := ih (unitUpd st c) rest (Nat.le_of_succ_le_succ hf)
        rw [show containsStr ['\n', '\n', '\n']
            (c :: scanGo nlStep unitUpd f (unitUpd st c) rest) =
          (List.isPrefixOf ['\n', '\n', '\n']
              (c :: scanGo nlStep unitUpd f (unitUpd st c) rest) ||
            containsStr ['\n', '\n', '\n']
              (scanGo nlStep unitUpd f (unitUpd st c) rest)) from rfl]
        rw [hW, Bool.or_false]
        by_cases hc : c = '\n'
        · subst hc
          cases rest with
          | nil =>
            rw [scanGo_nil]
            decide
          | cons d t =>
            by_cases hd : d = '\n'
            · subst hd
              have htne : t = [] ∨ ∃ e u, t = e :: u ∧ e ≠ '\n' := by
                cases t with
                | nil => exact Or.inl rfl
                | cons e u =>
                  refine Or.inr ⟨e, u, rfl, ?_⟩
                  intro he
                  subst he
                  rw [nlStep_fire] at hstep
                  exact absurd hstep (by simp)
              have hflen : ('\n' :: t).length ≤ f := Nat.le_of_succ_le_succ hf
              obtain ⟨f2, rfl⟩ : ∃ f2, f = f2 + 1 := by
                refine ⟨f - 1, ?_⟩
                simp at hflen
                omega
              have hnone2 : nlStep (unitUpd st '\n') ('\n' :: t) = none := by
                rcases htne with rfl | ⟨e, u, rfl, he⟩
                · rfl
                · unfold nlStep
                  split
                  · rename_i t0 heq0
                    injection heq0 with _ heq1
                    injection heq1 with he2 _
                    exact absurd he2 (by simpa [eq_comm] using he)
                  · rfl
              simp only [scanGo, hnone2]
              rcases htne with rfl | ⟨e, u, rfl, he⟩
              · rw [scanGo_nil]
                decide
              · have he2 : ('\n' == e) = false := beq_eq_false_iff_ne.mpr (Ne.symm he)
                obtain ⟨Z, hZ⟩ := scanGo_nl_head f2 (unitUpd (unitUpd st '\n') '\n') e u
                  (by simp at hflen ⊢; omega)
                rw [hZ]
                simp [List.isPrefixOf, he2]
            · have hd2 : ('\n' == d) = false := beq_eq_false_iff_ne.mpr (Ne.symm hd)
              obtain ⟨Y, hY⟩ := scanGo_nl_head f (unitUpd st '\n') d t
                (Nat.le_of_succ_le_succ hf)
              rw [hY]
              simp [List.isPrefixOf, hd2]
        · have hc2 : ('\n' == c) = false := beq_eq_false_iff_ne.mpr (Ne.symm hc)
          simp [List.isPrefixOf, hc2]

theorem collapseNl_no_nl3 (l : List Char) :
    containsStr ['\n', '\n', '\n'] (collapseNl l) = false :=
  collapse_no_nl3_aux l.length () l (Nat.le_refl _)

theorem collapseNl_contains {s : List Char} (hne : s ≠ []) (hnl : '\n' ∉ s)
    {l : List Char} (h : containsStr s l = true) :
    containsStr s (collapseNl l) = true :=
  runScan_contains nlStep_ok nlStep_shape (collapse_separated hne hnl) hne () l h

theorem dropWhile_nl_replicate_append (k : Nat) (b : List Char) :
    (List.replicate k '\n' ++ b).dropWhile (fun c => c == '\n') =
      b.dropWhile (fun c => c == '\n') := by
  induction k with
  | zero => simp
  | succ k ih =>
    rw [List.replicate_succ, List.cons_append, List.dropWhile_cons]
    simp [ih]

theorem collapseNl_run {n : Nat} (hn : 3 ≤ n) (b : List Char) :
    collapseNl (List.replicate n '\n' ++ b) =
      '\n' :: '\n' :: collapseNl (b.dropWhile (fun c => c == '\n')) := by
  obtain ⟨k, rfl⟩ : ∃ k, n = 3 + k := ⟨n - 3, by omega⟩
  have hshape : List.replicate (3 + k) '\n' ++ b =
      '\n' :: '\n' :: '\n' :: (List.replicate k '\n' ++ b) := by
    rw [List.replicate_add, List.append_assoc]
    rfl
  rw [hshape]
  show scanGo nlStep unitUpd (('\n' :: '\n' :: '\n' :: (List.replicate k '\n' ++ b)).length)
    () ('\n' :: '\n' :: '\n' :: (List.replicate k '\n' ++ b)) = _
  have hlen : ('\n' :: '\n' :: '\n' :: (List.replicate k '\n' ++ b)).length =
      (k + b.length + 2) + 1 := by
    simp
  rw [hlen]
  simp only [scanGo, nlStep_fire]
  rw [dropWhile_nl_replicate_append]
  have hfuel := @scanGo_fuel Unit nlStep unitUpd nlStep_ok (k + b.length + 2)
    ((b.dropWhile (fun c => c == '\n')).length) () (b.dropWhile (fun c => c == '\n'))
    (by have := dropWhile_length_le (fun c => c == '\n') b; omega)
    (Nat.le_refl _)
  rw [hfuel]
  rfl

theorem insertAt_mem {α : Type} (n : Nat) (x : α) (l : List α) : x ∈ insertAt n x l := by
  induction n generalizing l with
  | zero => exact List.mem_cons_self x l
  | succ n ih =>
    cases l with
    | nil => exact List.mem_singleton.mpr rfl
    | cons y ys => exact List.mem_cons_of_mem y (ih ys)

theorem joinSep_infix_of_mem {sep x : List Char} {L : List (List Char)} (hx : x ∈ L) :
    x <:+: joinSep sep L := by
  induction L with
  | nil => exact absurd hx (List.not_mem_nil x)
  | cons y ys ih =>
    rcases List.mem_cons.mp hx with rfl | hx2
    · cases ys with
      | nil => exact List.infix_refl x
      | cons z zs =>
        show x <:+: x ++ sep ++ joinSep sep (z :: zs)
        rw [List.append_assoc]
        exact (List.prefix_append x _).isInfix
    · cases ys with
      | nil => exact absurd hx2 (List.not_mem_nil x)
      | cons z zs =>
        have := ih hx2
        show x <:+: y ++ sep ++ joinSep sep (z :: zs)
        exact this.trans (List.suffix_append (y ++ sep) _).isInfix

theorem lastImportIdxAux_ge : ∀ (lines : List (List Char)) (i acc : Nat), acc ≤ i →
    acc ≤ lastImportIdxAux i acc lines := by
  intro lines
  induction lines with
  | nil => intro i acc _; exact Nat.le_refl _
  | cons ln rest ih =>
    intro i acc hacc
    simp only [lastImportIdxAux]
    by_cases h : isImportLine ln = true
    · rw [if_pos h]
      exact Nat.le_trans (by omega) (ih (i+1) (i+1) (Nat.le_refl _))
    · rw [if_neg h]
      exact ih (i+1) acc (by omega)

theorem lastImportIdxAux_spec : ∀ (lines : List (List Char)) (i acc : Nat), acc ≤ i →
    (lastImportIdxAux i acc lines = acc ∨
      ∃ j, j < lines.length ∧ isImportLine (lines.getD j []) = true ∧
        lastImportIdxAux i acc lines = i + j + 1) ∧
    (∀ j, j < lines.length → lastImportIdxAux i acc lines ≤ i + j →
      isImportLine (lines.getD j []) = false) := by
  intro lines
  induction lines with
  | nil =>
    intro i acc _
    exact ⟨Or.inl rfl, fun j hj _ => absurd hj (by simp)⟩
  | cons ln rest ih =>
    intro i acc hacc
    simp only [lastImportIdxAux]
    by_cases h : isImportLine ln = true
    · rw [if_pos h]
      obtain ⟨ih1, ih2⟩ := ih (i+1) (i+1) (Nat.le_refl _)
      constructor
      · rcases ih1 with heq | ⟨j, hj, himp, heq⟩
        · exact Or.inr ⟨0, by simp, by simpa using h, by omega⟩
        · exact Or.inr ⟨j + 1, by simpa using Nat.succ_lt_succ hj, by simpa using himp,
            by omega⟩
      · intro j hj hle
        cases j with
        | zero =>
          exfalso
          have := lastImportIdxAux_ge rest (i+1) (i+1) (Nat.le_refl _)
          omega
        | succ j =>
          have hj2 : j < rest.length := by simpa using Nat.lt_of_succ_lt_succ hj
          have := ih2 j hj2 (by omega)
          simpa using this
    · rw [if_neg h]
      obtain ⟨ih1, ih2⟩ := ih (i+1) acc (by omega)
      constructor
      · rcases ih1 with heq | ⟨j, hj, himp, heq⟩
        · exact Or.inl heq
        · exact Or.inr ⟨j + 1, by simpa using Nat.succ_lt_succ hj, by simpa using himp,
            by omega⟩
      · intro j hj hle
        cases j with
        | zero => simpa using (Bool.not_eq_true _).mp h
        | succ j =>
          have hj2 : j < rest.length := by simpa using Nat.lt_of_succ_lt_succ hj
          have := ih2 j hj2 (by omega)
          simpa using this

/-- The insertion index of both scripts is one past the last line that
starts with the import keyword: no line at or after it is an import line,
and the line just before it (when the index is positive) is one. -/
theorem lastImportIdx_spec (lines : List (List Char)) :
    (∀ j, lastImportIdx lines ≤ j → j < lines.length →
      isImportLine (lines.getD j []) = false) ∧
    (lastImportIdx lines = 0 ∨
      (0 < lastImportIdx lines ∧ lastImportIdx lines ≤ lines.length ∧
        isImportLine (lines.getD (lastImportIdx lines - 1) []) = true)) := by
  obtain ⟨h1, h2⟩ := lastImportIdxAux_spec lines 0 0 (Nat.le_refl _)
  constructor
  · intro j hle hlt
    unfold lastImportIdx at hle
    exact h2 j hlt (by omega)
  · rcases h1 with heq | ⟨j, hj, himp, heq⟩
    · exact Or.inl heq
    · have hidx : lastImportIdx lines = j + 1 := by
        unfold lastImportIdx
        omega
      refine Or.inr ⟨by omega, by omega, ?_⟩
      rw [hidx]
      simpa using himp

end Rw

namespace LazyInit

open Rw

theorem matchInst_length {l v cls r : List Char} (h : matchInst l = some (v, cls, r)) :
    r.length < l.length := by
  unfold matchInst at h
  split at h
  · exact absurd h (by simp)
  rename_i r1 h1
  split at h
  · exact absurd h (by simp)
  rename_i r2 h2
  split at h
  · exact absurd h (by simp)
  rename_i v0 r3 hv hw
  split at h
  · exact absurd h (by simp)
  rename_i r5 h5
  split at h
  · exact absurd h (by simp)
  rename_i r7 h7
  split at h
  · exact absurd h (by simp)
  rename_i r8 h8
  split at h
  rename_i cls0 r9 h9
  split at h
  · split at h
    · exact absurd h (by simp)
    · rename_i r10 h10
      simp only [Option.some.injEq, Prod.mk.injEq] at h
      obtain ⟨-, -, hr⟩ := h
      subst hr
      have e1 := expectStr_length h1
      have e2 := skipSpaces1_length h2
      have e5 := expectStr_length h5
      have e7 := expectStr_length h7
      have e8 := skipSpaces1_length h8
      have e10 := expectStr_length h10
      have esemi := dropSemi_length_le r10
      have d3 : r3.length ≤ r2.length := by
        have : r3 = r2.dropWhile isWordChar := congrArg Prod.snd hw.symm
        rw [this]; exact dropWhile_length_le _ r2
      have d4 : (r3.dropWhile isSpaceChar).length ≤ r3.length := dropWhile_length_le _ r3
      have d6 : (r5.dropWhile isSpaceChar).length ≤ r5.length := dropWhile_length_le _ r5
      have d9 : r9.length ≤ r8.length := by
        have : r9 = r8.dropWhile isWordChar := congrArg Prod.snd h9.symm
        rw [this]; exact dropWhile_length_le _ r8
      simp only [String.toList] at e1 e5 e7 e10
      omega
  · exact absurd h (by simp)

theorem instStep_ok : StepOk instStep := by
  intro st l out st2 r h
  unfold instStep at h
  rw [Option.map_eq_some'] at h
  obtain ⟨⟨v, cls, r0⟩, hm, heq⟩ := h
  simp only [Prod.mk.injEq] at heq
  obtain ⟨-, -, hr⟩ := heq
  subst hr
  exact matchInst_length hm

theorem callStep_ok (v g : List Char) : StepOk (callStep v g) := by
  intro st l out st2 r h
  unfold callStep at h
  split at h
  · exact absurd h (by simp)
  split at h
  · rename_i hpre
    split at h
    · rename_i r2 hdrop
      split at h
      · exact absurd h (by simp)
      · simp only [Option.some.injEq, Prod.mk.injEq] at h
        obtain ⟨-, -, hr⟩ := h
        subst hr
        have h1 : (l.drop v.length).length = r2.length + 1 := by rw [hdrop]; simp
        have h2 : (l.drop v.length).length ≤ l.length := by
          simp [List.length_drop]
        have h3 := dropWhile_length_le isWordChar r2
        omega
    · exact absurd h (by simp)
  · exact absurd h (by simp)

theorem matchImportStmt_length {l inner r : List Char}
    (h : matchImportStmt l = some (inner, r)) : r.length < l.length := by
  unfold matchImportStmt at h
  split at h
  · exact absurd h (by simp)
  rename_i r1 h1
  split at h
  · rename_i r3 hdrop
    split at h
    · exact absurd h (by simp)
    · split at h
      · rename_i r4 hdrop2
        split at h
        · exact absurd h (by simp)
        · rename_i r6 h6
          rw [Option.map_eq_some'] at h
          obtain ⟨r8, h8, heq⟩ := h
          simp only [Prod.mk.injEq] at heq
          obtain ⟨-, hr⟩ := heq
          subst hr
          have e1 := expectStr_length h1
          have e6 := expectStr_length h6
          have e8 := expectStr_length h8
          have d1 : (r1.dropWhile isSpaceChar).length ≤ r1.length := dropWhile_length_le _ r1
          have hd1 : (r1.dropWhile isSpaceChar).length = r3.length + 1 := by
            rw [hdrop]; simp
          have d2 : (r3.dropWhile (fun c => c != '\x7d')).length ≤ r3.length :=
            dropWhile_length_le _ r3
          have hd2 : (r3.dropWhile (fun c => c != '\x7d')).length = r4.length + 1 := by
            rw [hdrop2]; simp
          have d4 : (r4.dropWhile isSpaceChar).length ≤ r4.length := dropWhile_length_le _ r4
          have d6 : (r6.dropWhile isSpaceChar).length ≤ r6.length := dropWhile_length_le _ r6
          simp only [String.toList] at e1 e6 e8
          omega
      · exact absurd h (by simp)
  · exact absurd h (by simp)

theorem importStep_ok (toRemove : List (List Char)) : StepOk (importStep toRemove) := by
  intro st l out st2 r h
  unfold importStep at h
  rw [Option.map_eq_some'] at h
  obtain ⟨⟨inner, r0⟩, hm, heq⟩ := h
  simp only [Prod.mk.injEq] at heq
  obtain ⟨-, -, hr⟩ := heq
  subst hr
  exact matchImportStmt_length hm

theorem lookup_mem {k v : List Char} :
    ∀ {table : List (List Char × List Char)}, List.lookup k table = some v → (k, v) ∈ table := by
  intro table
  induction table with
  | nil => intro h; simp [List.lookup] at h
  | cons p rest ih =>
    obtain ⟨k0, v0⟩ := p
    intro h
    rw [List.lookup] at h
    split at h
    · rename_i heq
      simp only [Option.some.injEq] at h
      subst h
      have : k = k0 := by simpa using heq
      subst this
      exact List.mem_cons_self _ _
    · exact List.mem_cons_of_mem _ (ih h)

theorem getters_wf : ∀ p ∈ SERVICE_GETTERS, '\n' ∉ p.2 ∧ p.2 ≠ [] := by decide

theorem lookupGetter_wf {cls g : List Char} (h : lookupGetter cls = some g) :
    '\n' ∉ g ∧ g ≠ [] := by
  have := lookup_mem h
  exact getters_wf _ this

theorem no_nl_joinSep {sep : List Char} (hsep : '\n' ∉ sep) :
    ∀ {parts : List (List Char)}, (∀ x ∈ parts, '\n' ∉ x) → '\n' ∉ joinSep sep parts := by
  intro parts
  induction parts with
  | nil => intro _; simp [joinSep]
  | cons x rest ih =>
    intro hall
    cases rest with
    | nil =>
      show '\n' ∉ joinSep sep [x]
      exact hall x (List.mem_cons_self _ _)
    | cons y ys =>
      show '\n' ∉ x ++ sep ++ joinSep sep (y :: ys)
      intro hmem
      rcases List.mem_append.mp hmem with h1 | h2
      · rcases List.mem_append.mp h1 with h3 | h4
        · exact hall x (List.mem_cons_self _ _) h3
        · exact hsep h4
      · exact ih (fun z hz => hall z (List.mem_cons_of_mem _ hz)) h2

theorem dictInsert_ne_nil (k v : List Char) (d : List (List Char × List Char)) :
    dictInsert k v d ≠ [] := by
  cases d with
  | nil => simp [dictInsert]
  | cons p rest =>
    obtain ⟨k0, v0⟩ := p
    unfold dictInsert
    split <;> simp

theorem buildVtsAux_ne_nil {acc : List (List Char × List Char)}
    (hacc : acc ≠ []) (l : List (List Char × List Char)) : buildVtsAux acc l ≠ [] := by
  induction l generalizing acc with
  | nil => exact hacc
  | cons p rest ih =>
    obtain ⟨v, cls⟩ := p
    show buildVtsAux (if (lookupGetter cls).isSome then dictInsert v cls acc else acc) rest ≠ []
    split
    · exact ih (dictInsert_ne_nil _ _ _)
    · exact ih hacc

theorem buildVtsAux_unmapped {l : List (List Char × List Char)}
    (hl : ∀ p ∈ l, lookupGetter p.2 = none) (acc : List (List Char × List Char)) :
    buildVtsAux acc l = acc := by
  induction l generalizing acc with
  | nil => rfl
  | cons p rest ih =>
    obtain ⟨v, cls⟩ := p
    show buildVtsAux (if (lookupGetter cls).isSome then dictInsert v cls acc else acc) rest = acc
    have : lookupGetter cls = none := hl (v, cls) (List.mem_cons_self _ _)
    rw [this]
    simp only [Option.isSome_none, Bool.false_eq_true, if_false]
    exact ih (fun q hq => hl q (List.mem_cons_of_mem _ hq)) acc

theorem dictInsert_mem {q : List Char × List Char} {k v : List Char}
    {d : List (List Char × List Char)} (h : q ∈ dictInsert k v d) :
    q = (k, v) ∨ q ∈ d := by
  induction d with
  | nil => simpa [dictInsert] using h
  | cons p rest ih =>
    obtain ⟨k0, v0⟩ := p
    unfold dictInsert at h
    split at h
    · rename_i heq
      subst heq
      rcases List.mem_cons.mp h with h1 | h2
      · left; rw [h1]
      · right; exact List.mem_cons_of_mem _ h2
    · rcases List.mem_cons.mp h with h1 | h2
      · right; rw [h1]; exact List.mem_cons_self _ _
      · rcases ih h2 with h3 | h4
        · exact Or.inl h3
        · exact Or.inr (List.mem_cons_of_mem _ h4)

theorem buildVtsAux_mem {q : List Char × List Char} :
    ∀ {l acc : List (List Char × List Char)}, q ∈ buildVtsAux acc l →
      q ∈ acc ∨ (q ∈ l ∧ (lookupGetter q.2).isSome = true) := by
  intro l
  induction l with
  | nil => intro acc h; exact Or.inl h
  | cons p rest ih =>
    obtain ⟨v, cls⟩ := p
    intro acc h
    have h2 := ih h
    rcases h2 with hacc | ⟨hmem, hsome⟩
    · by_cases hm : (lookupGetter cls).isSome = true
      · rw [if_pos hm] at hacc
        rcases dictInsert_mem hacc with h3 | h4
        · right
          constructor
          · rw [h3]; exact List.mem_cons_self _ _
          · rw [h3]; exact hm
        · exact Or.inl h4
      · rw [if_neg hm] at hacc
        exact Or.inl hacc
    · exact Or.inr ⟨List.mem_cons_of_mem _ hmem, hsome⟩

theorem used_getters_ne_nil {content : List Char}
    (h : (var_to_service content).isEmpty = false) : used_getters content ≠ [] := by
  intro hug
  apply (by simpa using h : var_to_service content ≠ [])
  unfold var_to_service
  apply buildVtsAux_unmapped
  intro p hp
  unfold used_getters at hug
  rw [List.filterMap_eq_nil_iff] at hug
  exact hug p hp

theorem insSorted_ne_nil (x : List Char) (l : List (List Char)) : insSorted x l ≠ [] := by
  cases l with
  | nil => simp [insSorted]
  | cons y ys =>
    unfold insSorted
    split
    · simp
    · split <;> simp

theorem sortDedup_ne_nil {l : List (List Char)} (h : l ≠ []) : sortDedup l ≠ [] := by
  cases l with
  | nil => exact absurd rfl h
  | cons x xs => exact insSorted_ne_nil x (sortDedup xs)

theorem mem_insSorted {x y : List Char} {l : List (List Char)} :
    x ∈ insSorted y l ↔ x = y ∨ x ∈ l := by
  induction l with
  | nil => simp [insSorted]
  | cons z zs ih =>
    unfold insSorted
    split
    · simp [List.mem_cons]
    · split
      · rename_i hlt heq
        subst heq
        constructor
        · intro h; exact Or.inr h
        · rintro (rfl | h)
          · exact List.mem_cons_self _ _
          · exact h
      · constructor
        · intro h
          rcases List.mem_cons.mp h with rfl | h2
          · exact Or.inr (List.mem_cons_self _ _)
          · rcases ih.mp h2 with h3 | h4
            · exact Or.inl h3
            · exact Or.inr (List.mem_cons_of_mem _ h4)
        · rintro (rfl | h2)
          · exact List.mem_cons_of_mem _ (ih.mpr (Or.inl rfl))
          · rcases List.mem_cons.mp h2 with rfl | h3
            · exact List.mem_cons_self _ _
            · exact List.mem_cons_of_mem _ (ih.mpr (Or.inr h3))

theorem mem_sortDedup {x : List Char} {l : List (List Char)} :
    x ∈ sortDedup l ↔ x ∈ l := by
  induction l with
  | nil => simp [sortDedup]
  | cons y ys ih =>
    show x ∈ insSorted y (sortDedup ys) ↔ _
    rw [mem_insSorted, ih]
    simp [List.mem_cons]

theorem sorted_getters_wf {content : List Char} :
    ∀ g ∈ sortDedup (used_getters content), '\n' ∉ g ∧ g ≠ [] := by
  intro g hg
  rw [mem_sortDedup] at hg
  unfold used_getters at hg
  rw [List.mem_filterMap] at hg
  obtain ⟨p, -, hp⟩ := hg
  exact lookupGetter_wf hp

theorem getter_import_contains_guard (gs : List (List Char)) :
    containsStr ("from '@/lib/services'".toList) (getter_import gs) = true := by
  rw [containsStr_infix_iff]
  refine ⟨("import \x7b ".toList) ++ Rw.joinSep (", ".toList) gs ++ (" \x7d ".toList),
    [';'], ?_⟩
  unfold getter_import
  simp only [List.append_assoc, List.cons_append, List.nil_append]
  rfl

theorem getter_import_no_nl {content : List Char} :
    '\n' ∉ getter_import (sortDedup (used_getters content)) := by
  unfold getter_import
  intro h
  rcases List.mem_append.mp h with h1 | h2
  · rcases List.mem_append.mp h1 with h3 | h4
    · revert h3; decide
    · exact no_nl_joinSep (by decide)
        (fun x hx => (sorted_getters_wf x hx).1) h4
  · revert h2; decide

theorem rewrite_guard {content : List Char} (h : lazyGuard content = true) :
    rewrite content = content := by
  unfold rewrite
  rw [if_pos h]

theorem rewrite_noinst {content : List Char}
    (h : (var_to_service content).isEmpty = true) : rewrite content = content := by
  unfold rewrite
  cases hg : lazyGuard content with
  | true => simp
  | false => simp [h]

theorem rewrite_processing {content : List Char} (h1 : lazyGuard content = false)
    (h2 : (var_to_service content).isEmpty = false) :
    rewrite content = collapseNl (insertImportLine
      (getter_import (sortDedup (used_getters content))) (preInsert content)) := by
  have hgs : (sortDedup (used_getters content)).isEmpty = false := by
    have := sortDedup_ne_nil (used_getters_ne_nil h2)
    simpa [List.isEmpty_iff] using this
  unfold rewrite
  rw [if_neg (by simp [h1]), if_neg (by simp [h2])]
  show collapseNl
      (if (sortDedup (used_getters content)).isEmpty = true then preInsert content
       else insertImportLine (getter_import (sortDedup (used_getters content)))
         (preInsert content)) = _
  rw [if_neg (by simp [hgs])]

theorem rewrite_contains_guard {content : List Char} (h1 : lazyGuard content = false)
    (h2 : (var_to_service content).isEmpty = false) :
    lazyGuard (rewrite content) = true := by
  rw [rewrite_processing h1 h2]
  unfold lazyGuard
  apply collapseNl_contains (by decide) (by decide)
  apply containsStr_of_infix
    ((containsStr_infix_iff _ _).mp (getter_import_contains_guard _))
  unfold insertImportLine joinNl
  exact joinSep_infix_of_mem (insertAt_mem _ _ _)

/-- The lazy-init rewrite is idempotent on every input. -/
theorem rewrite_idem (content : List Char) : rewrite (rewrite content) = rewrite content := by
  cases h1 : lazyGuard content with
  | true => rw [rewrite_guard h1, rewrite_guard h1]
  | false =>
    cases h2 : (var_to_service content).isEmpty with
    | true => rw [rewrite_noinst h2, rewrite_noinst h2]
    | false => exact rewrite_guard (rewrite_contains_guard h1 h2)

theorem callStep_fire (v g m post : List Char) (hm : m ≠ [])
    (htw : (m ++ post).takeWhile isWordChar = m) :
    callStep v g false (v ++ '.' :: (m ++ post)) =
      some (g ++ ("()".toList) ++ '.' :: m, true, post) := by
  have hdw : (m ++ post).dropWhile isWordChar = post := by
    have h0 : (m ++ post).takeWhile isWordChar ++ (m ++ post).dropWhile isWordChar =
        m ++ post := List.takeWhile_append_dropWhile isWordChar (m ++ post)
    rw [htw] at h0
    exact List.append_cancel_left h0
  unfold callStep
  rw [if_neg (by simp)]
  rw [if_pos (List.isPrefixOf_iff_prefix.mpr (List.prefix_append v _))]
  rw [List.drop_left]
  show (if ((('.' :: (m ++ post)).drop 1).takeWhile isWordChar).isEmpty = true then none
    else _) = _
  simp only [List.drop_succ_cons, List.drop_zero]
  simp only [htw, hdw]
  rw [if_neg (by simpa [List.isEmpty_iff] using hm)]

theorem replaceCalls_decomp (v g pre m post : List Char)
    (hnf : noFireThrough (callStep v g) wordUpd false pre (v ++ '.' :: (m ++ post)) = true)
    (hb : pre.foldl wordUpd false = false) (hm : m ≠ [])
    (htw : (m ++ post).takeWhile isWordChar = m) :
    replaceCalls v g (pre ++ (v ++ '.' :: (m ++ post))) =
      pre ++ g ++ ("()".toList) ++ '.' :: m ++
        runScan (callStep v g) wordUpd true post := by
  unfold replaceCalls
  rw [runScan_append pre (v ++ '.' :: (m ++ post)) false hnf, hb]
  rw [runScan_fire (callStep_ok v g) (callStep_fire v g m post hm htw) (by simp)]
  simp [List.append_assoc]

end LazyInit

namespace PrismaImports

open Rw

theorem isQuote_cases {q : Char} (h : isQuote q = true) : q = '\'' ∨ q = '"' := by
  unfold isQuote at h
  rcases Bool.or_eq_true_iff.mp h with h1 | h2
  · left; simpa using h1
  · right; simpa using h2

theorem fromStep_some_inv {st : Unit} {l out : List Char} {st2 : Unit} {r : List Char}
    (h : fromStep st l = some (out, st2, r)) :
    ∃ q1 q2, isQuote q1 = true ∧ isQuote q2 = true ∧ l = fromMatchText q1 q2 ++ r ∧
      out = ("from '@midcurve/database'".toList) := by
  unfold fromStep at h
  split at h
  · exact absurd h (by simp)
  · rename_i r1 q1 r2 h1
    split at h
    · rename_i hq1
      split at h
      · exact absurd h (by simp)
      · rename_i r3 q2 r4 h2
        split at h
        · rename_i hq2
          simp only [Option.some.injEq, Prod.mk.injEq] at h
          obtain ⟨hout, -, hr⟩ := h
          subst hr
          refine ⟨q1, q2, by simpa using hq1, by simpa using hq2, ?_, hout.symm⟩
          have e1 := expectStr_some_eq h1
          have e2 := expectStr_some_eq h2
          rw [e1, e2]
          unfold fromMatchText
          simp
        · exact absurd h (by simp)
      · exact absurd h (by simp)
    · exact absurd h (by simp)
  · exact absurd h (by simp)

theorem fromStep_ok : StepOk fromStep := by
  intro st l out st2 r h
  obtain ⟨q1, q2, -, -, heq, -⟩ := fromStep_some_inv h
  rw [heq]
  have : (fromMatchText q1 q2).length = 21 := by
    unfold fromMatchText
    simp
  simp [this]

theorem fromStep_shape :
    ShapeOk fromStep (fun mt => ∃ q1 q2, isQuote q1 = true ∧ isQuote q2 = true ∧
      mt = fromMatchText q1 q2) := by
  intro st l out st2 r h
  obtain ⟨q1, q2, hq1, hq2, heq, -⟩ := fromStep_some_inv h
  exact ⟨fromMatchText q1 q2, heq, q1, q2, hq1, hq2, rfl⟩

theorem fromStep_fire {q1 q2 : Char} (hq1 : isQuote q1 = true) (hq2 : isQuote q2 = true)
    (b : List Char) :
    fromStep () (fromMatchText q1 q2 ++ b) =
      some (("from '@midcurve/database'".toList), (), b) := by
  have hL : fromMatchText q1 q2 ++ b =
      ("from ".toList) ++ (q1 :: (("@prisma/client".toList) ++ (q2 :: b))) := by
    unfold fromMatchText
    simp
  rw [hL]
  unfold fromStep
  simp only [expectStr_append, hq1, if_true, hq2]

theorem reqStep_some_inv {st : Unit} {l out : List Char} {st2 : Unit} {r : List Char}
    (h : reqStep st l = some (out, st2, r)) :
    ∃ q1 q2, isQuote q1 = true ∧ isQuote q2 = true ∧ l = reqMatchText q1 q2 ++ r ∧
      out = ("prisma".toList) := by
  unfold reqStep at h
  split at h
  · exact absurd h (by simp)
  · rename_i r1 q1 r2 h1
    split at h
    · rename_i hq1
      split at h
      · exact absurd h (by simp)
      · rename_i r3 q2 r4 h2
        split at h
        · rename_i hq2
          split at h
          · exact absurd h (by simp)
          · rename_i r5 h5
            simp only [Option.some.injEq, Prod.mk.injEq] at h
            obtain ⟨hout, -, hr⟩ := h
            subst hr
            refine ⟨q1, q2, by simpa using hq1, by simpa using hq2, ?_, hout.symm⟩
            have e1 := expectStr_some_eq h1
            have e2 := expectStr_some_eq h2
            have e5 := expectStr_some_eq h5
            rw [e1, e2, e5]
            unfold reqMatchText
            simp
        · exact absurd h (by simp)
      · exact absurd h (by simp)
    · exact absurd h (by simp)
  · exact absurd h (by simp)

theorem reqStep_ok : StepOk reqStep := by
  intro st l out st2 r h
  obtain ⟨q1, q2, -, -, heq, -⟩ := reqStep_some_inv h
  rw [heq]
  have : (reqMatchText q1 q2).length = 62 := by
    unfold reqMatchText
    simp
  simp [this]

theorem reqStep_shape :
    ShapeOk reqStep (fun mt => ∃ q1 q2, isQuote q1 = true ∧ isQuote q2 = true ∧
      mt = reqMatchText q1 q2) := by
  intro st l out st2 r h
  obtain ⟨q1, q2, hq1, hq2, heq, -⟩ := reqStep_some_inv h
  exact ⟨reqMatchText q1 q2, heq, q1, q2, hq1, hq2, rfl⟩

theorem reqStep_fire {q1 q2 : Char} (hq1 : isQuote q1 = true) (hq2 : isQuote q2 = true)
    (b : List Char) :
    reqStep () (reqMatchText q1 q2 ++ b) = some (("prisma".toList), (), b) := by
  have hL : reqMatchText q1 q2 ++ b =
      ("new (require(".toList) ++ (q1 :: (("@prisma/client".toList) ++
        (q2 :: ((").PrismaClient)() as PrismaClient".toList) ++ b)))) := by
    unfold reqMatchText
    simp
  rw [hL]
  unfold reqStep
  simp only [expectStr_append, hq1, if_true, hq2]

theorem req_separated :
    Separated (fun mt => ∃ q1 q2, isQuote q1 = true ∧ isQuote q2 = true ∧
      mt = reqMatchText q1 q2) prismaImportLine := by
  constructor
  · rintro mt ⟨q1, q2, hq1, hq2, rfl⟩
    rcases isQuote_cases hq1 with rfl | rfl <;> rcases isQuote_cases hq2 with rfl | rfl <;>
      decide
  · rintro mt ⟨q1, q2, hq1, hq2, rfl⟩
    rcases isQuote_cases hq1 with rfl | rfl <;> rcases isQuote_cases hq2 with rfl | rfl <;>
      decide

theorem replaceRequireExpr_keeps_import {l : List Char}
    (h : containsStr prismaImportLine l = true) :
    containsStr prismaImportLine (replaceRequireExpr l) = true :=
  runScan_contains reqStep_ok reqStep_shape req_separated (by decide) () l h

theorem prismaRewrite_guard {content : List Char} (h : dbGuard content = true) :
    rewrite content = content := by
  unfold rewrite
  rw [if_pos h]

theorem prismaRewrite_noguard {content : List Char} (h : dbGuard content = false) :
    rewrite content = collapseNl (requireBlock (replaceFromPrisma content)) := by
  unfold rewrite
  rw [if_neg (by simp [h])]

theorem requireBlock_insert {c1 : List Char} (hreq : hasRequire c1 = true)
    (himp : hasPrismaImport c1 = false) :
    requireBlock c1 = replaceRequireExpr (insertImportLine prismaImportLine c1) := by
  unfold requireBlock
  rw [if_pos hreq, if_neg (by simp [himp])]

theorem requireBlock_noinsert {c1 : List Char} (hreq : hasRequire c1 = true)
    (himp : hasPrismaImport c1 = true) :
    requireBlock c1 = replaceRequireExpr c1 := by
  unfold requireBlock
  rw [if_pos hreq, if_pos himp]

theorem requireBlock_norequire {c1 : List Char} (hreq : hasRequire c1 = false) :
    requireBlock c1 = c1 := by
  unfold requireBlock
  rw [if_neg (by simp [hreq])]

/-- When the guard of the first pass's output holds, the second pass is a
no-op. -/
theorem prismaRewrite_second_noop {content : List Char}
    (h : dbGuard (rewrite content) = true) :
    rewrite (rewrite content) = rewrite content :=
  prismaRewrite_guard h

/-- The inserted import line survives to the output in the insertion case. -/
theorem prismaRewrite_inserted_line {content : List Char} (hg : dbGuard content = false)
    (hreq : hasRequire (replaceFromPrisma content) = true)
    (himp : hasPrismaImport (replaceFromPrisma content) = false) :
    containsStr prismaImportLine (rewrite content) = true := by
  rw [prismaRewrite_noguard hg, requireBlock_insert hreq himp]
  apply collapseNl_contains (by decide) (by decide)
  apply replaceRequireExpr_keeps_import
  rw [containsStr_infix_iff]
  unfold insertImportLine joinNl
  exact joinSep_infix_of_mem (insertAt_mem _ _ _)

theorem replaceFrom_decomp (a b : List Char) {q1 q2 : Char} (hq1 : isQuote q1 = true)
    (hq2 : isQuote q2 = true)
    (hnf : noFireThrough fromStep unitUpd () a (fromMatchText q1 q2 ++ b) = true) :
    replaceFromPrisma (a ++ (fromMatchText q1 q2 ++ b)) =
      a ++ ("from '@midcurve/database'".toList) ++ replaceFromPrisma b := by
  unfold replaceFromPrisma
  rw [runScan_append a (fromMatchText q1 q2 ++ b) () hnf]
  rw [runScan_fire fromStep_ok (fromStep_fire hq1 hq2 b)
    (by unfold fromMatchText; simp)]
  simp [List.append_assoc]

theorem replaceReq_decomp (a b : List Char) {q1 q2 : Char} (hq1 : isQuote q1 = true)
    (hq2 : isQuote q2 = true)
    (hnf : noFireThrough reqStep unitUpd () a (reqMatchText q1 q2 ++ b) = true) :
    replaceRequireExpr (a ++ (reqMatchText q1 q2 ++ b)) =
      a ++ ("prisma".toList) ++ replaceRequireExpr b := by
  unfold replaceRequireExpr
  rw [runScan_append a (reqMatchText q1 q2 ++ b) () hnf]
  rw [runScan_fire reqStep_ok (reqStep_fire hq1 hq2 b)
    (by unfold reqMatchText; simp)]
  simp [List.append_assoc]

end PrismaImports

namespace LazyInit

open Rw

theorem char_toNat_inj {a b : Char} (h : a.toNat = b.toNat) : a = b :=
  Char.eq_of_val_eq (UInt32.ext h)

theorem lexLt_total : ∀ x y : List Char, lexLt x y = false → x ≠ y → lexLt y x = true
  | [], [] => fun _ h => absurd rfl h
  | [], _ :: _ => fun h _ => by simp [lexLt] at h
  | _ :: _, [] => fun _ _ => by simp [lexLt]
  | a :: as_, b :: bs => by
    intro h hne
    unfold lexLt at h ⊢
    split at h
    · exact absurd h (by simp)
    · rename_i h1
      split at h
      · rename_i h2
        rw [if_pos h2]
      · rename_i h2
        have hab : a = b := char_toNat_inj (by omega)
        subst hab
        rw [if_neg (by omega), if_neg (by omega)]
        apply lexLt_total as_ bs h
        intro heq
        exact hne (by rw [heq])

theorem chain1_insSorted {x : List Char} :
    ∀ {l : List (List Char)}, List.Chain' (fun a b => lexLt a b = true) l →
      List.Chain' (fun a b => lexLt a b = true) (insSorted x l) := by
  intro l
  induction l with
  | nil => intro _; simp [insSorted]
  | cons y ys ih =>
    intro hch
    unfold insSorted
    split
    · rename_i hlt
      exact List.chain'_cons'.mpr ⟨fun z hz => by simp at hz; rw [← hz]; exact hlt,
        hch⟩
    · split
      · exact hch
      · rename_i hnlt hne
        rw [List.chain'_cons'] at hch
        obtain ⟨hhead, htail⟩ := hch
        rw [List.chain'_cons']
        refine ⟨?_, ih htail⟩
        intro z hz
        have hyx : lexLt y x = true :=
          lexLt_total x y (by simpa using hnlt) hne
        cases ys with
        | nil =>
          simp [insSorted] at hz
          rw [← hz]
          exact hyx
        | cons w ws =>
          unfold insSorted at hz
          split at hz
          · simp at hz
            rw [← hz]
            exact hyx
          · split at hz
            · simp at hz
              rw [← hz]
              exact hhead w (by simp)
            · simp at hz
              rw [← hz]
              exact hhead w (by simp)

theorem chain1_sortDedup (l : List (List Char)) :
    List.Chain' (fun a b => lexLt a b = true) (sortDedup l) := by
  induction l with
  | nil => simp [sortDedup]
  | cons x xs ih => exact chain1_insSorted ih

theorem getter_import_ne_nil (gs : List (List Char)) : getter_import gs ≠ [] := by
  unfold getter_import
  simp

theorem rewrite_contains_import {content : List Char} (h1 : lazyGuard content = false)
    (h2 : (var_to_service content).isEmpty = false) :
    containsStr (getter_import (sortDedup (used_getters content)))
      (rewrite content) = true := by
  rw [rewrite_processing h1 h2]
  apply collapseNl_contains (getter_import_ne_nil _) getter_import_no_nl
  rw [containsStr_infix_iff]
  unfold insertImportLine joinNl
  exact joinSep_infix_of_mem (insertAt_mem _ _ _)

theorem vts_getter_mem {content : List Char} {p : List Char × List Char}
    (hp : p ∈ var_to_service content) :
    ∃ g2, lookupGetter p.2 = some g2 ∧ g2 ∈ sortDedup (used_getters content) := by
  unfold var_to_service at hp
  rcases buildVtsAux_mem hp with hacc | ⟨hmem, hsome⟩
  · exact absurd hacc (List.not_mem_nil p)
  · obtain ⟨g2, hg2⟩ := Option.isSome_iff_exists.mp hsome
    refine ⟨g2, hg2, ?_⟩
    rw [mem_sortDedup]
    unfold used_getters
    rw [List.mem_filterMap]
    exact ⟨p, hmem, hg2⟩

end LazyInit

/-! The claims. -/

/-- C1 counterexample: an input holding both a mapped instantiation
(`AuthUserService`) and an unmapped one (`FooService`).  The unmapped
class is recorded nowhere, yet its instantiation line is not preserved:
step 3's `re.sub(inst_pattern, '')` deletes every `new *Service()`
statement once any mapped one is present. -/
theorem C1_cex :
    LazyInit.var_to_service
        ("const a = new AuthUserService();\nconst b = new FooService();\n".toList) =
      [("a".toList, "AuthUserService".toList)] ∧
    Rw.containsStr ("const b = new FooService();".toList)
        ("const a = new AuthUserService();\nconst b = new FooService();\n".toList) = true ∧
    Rw.containsStr ("const b = new FooService();".toList)
        (LazyInit.rewrite
          ("const a = new AuthUserService();\nconst b = new FooService();\n".toList)) =
      false := by
  refine ⟨by decide, by decide, by decide⟩

/-- C1 (amended): for every input in which no instantiation of a mapped
service class occurs (no match of the instantiation pattern has a class
in the Symbol Mapping), the service lazy-init rewrite performs no rewrite
at all and returns the input unchanged, so every original instantiation
line is preserved.  (When a mapped instantiation is also present, the
unmapped instantiation statements are deleted as well — see the
counterexample.) -/
theorem C1_unmapped_preserved (content : List Char)
    (h : (LazyInit.var_to_service content).isEmpty = true) :
    LazyInit.rewrite content = content :=
  LazyInit.rewrite_noinst h

/-- C1 witness: a concrete input with only an unmapped instantiation is
returned unchanged. -/
theorem C1_witness :
    (LazyInit.var_to_service ("const b = new FooService();\n".toList)).isEmpty = true ∧
    LazyInit.rewrite ("const b = new FooService();\n".toList) =
      ("const b = new FooService();\n".toList) :=
  ⟨by decide, C1_unmapped_preserved _ (by decide)⟩

/-- C2 counterexample: applying the ORM rewrite twice differs from
applying it once.  Replacing the require-expression with `prisma` can
manufacture a new `from '@prisma/client'` occurrence, which only the
second pass rewrites; the guard does not fire because the first pass
never introduced a `@midcurve/database` import. -/
theorem C2_cex :
    PrismaImports.rewrite (PrismaImports.rewrite
        (("import \x7b prisma \x7d from './stub';\nconst x = \"from '@new (require('@prisma/client').PrismaClient)() as PrismaClient/client'\";\n").toList)) ≠
      PrismaImports.rewrite
        (("import \x7b prisma \x7d from './stub';\nconst x = \"from '@new (require('@prisma/client').PrismaClient)() as PrismaClient/client'\";\n").toList) := by
  decide

/-- C2 (amended): the service lazy-init rewrite is idempotent on every
input (its second pass is stopped by the guard).  For the ORM import
rewrite, the second pass is a no-op whenever the guard detects the
target-database import in the first pass's output; on inputs where the
first pass's output lacks that import the second pass can rewrite again
(see the counterexample). -/
theorem C2_idempotence (c d : List Char)
    (h : PrismaImports.dbGuard (PrismaImports.rewrite d) = true) :
    LazyInit.rewrite (LazyInit.rewrite c) = LazyInit.rewrite c ∧
    PrismaImports.rewrite (PrismaImports.rewrite d) = PrismaImports.rewrite d :=
  ⟨LazyInit.rewrite_idem c, PrismaImports.prismaRewrite_second_noop h⟩

/-- C2 witness: concrete inputs for both engines; the ORM input's first
pass rewrites its import to `@midcurve/database`, so the guard holds. -/
theorem C2_witness :
    PrismaImports.dbGuard (PrismaImports.rewrite
        (("import \x7b PrismaClient \x7d from '@prisma/client';\n").toList)) = true ∧
    (LazyInit.rewrite (LazyInit.rewrite
        (("const a = new AuthUserService();\na.m();\n").toList)) =
      LazyInit.rewrite (("const a = new AuthUserService();\na.m();\n").toList) ∧
    PrismaImports.rewrite (PrismaImports.rewrite
        (("import \x7b PrismaClient \x7d from '@prisma/client';\n").toList)) =
      PrismaImports.rewrite (("import \x7b PrismaClient \x7d from '@prisma/client';\n").toList)) :=
  ⟨by decide, C2_idempotence (("const a = new AuthUserService();\na.m();\n").toList)
    (("import \x7b PrismaClient \x7d from '@prisma/client';\n").toList) (by decide)⟩

/-- C9: in both scripts the per-file flag returned by `fix_file` is true
exactly when the transformed text differs from the original; the file's
content after the call is the transformed text when the flag is true and
the untouched original when it is false. -/
theorem C9_write_back (c d : List Char) :
    ((LazyInit.fix_file c).1 = true ↔ LazyInit.rewrite c ≠ c) ∧
    ((LazyInit.fix_file c).1 = false → (LazyInit.fix_file c).2 = c) ∧
    ((LazyInit.fix_file c).1 = true → (LazyInit.fix_file c).2 = LazyInit.rewrite c) ∧
    ((PrismaImports.fix_file d).1 = true ↔ PrismaImports.rewrite d ≠ d) ∧
    ((PrismaImports.fix_file d).1 = false → (PrismaImports.fix_file d).2 = d) ∧
    ((PrismaImports.fix_file d).1 = true →
      (PrismaImports.fix_file d).2 = PrismaImports.rewrite d) := by
  unfold LazyInit.fix_file PrismaImports.fix_file
  by_cases h1 : LazyInit.rewrite c = c <;> by_cases h2 : PrismaImports.rewrite d = d <;>
    simp [h1, h2]

/-- C9 witness: a file whose transformed text equals the original is left
untouched, in both scripts. -/
theorem C9_witness :
    (LazyInit.fix_file ("const x = 1;\n".toList)).2 = ("const x = 1;\n".toList) ∧
    (PrismaImports.fix_file ("const y = 2;\n".toList)).2 = ("const y = 2;\n".toList) :=
  ⟨(C9_write_back (("const x = 1;\n").toList) (("const y = 2;\n").toList)).2.1 (by decide),
   (C9_write_back (("const x = 1;\n").toList) (("const y = 2;\n").toList)).2.2.2.2.1
     (by decide)⟩

/-- C10: the ORM rewrite's presence check is the raw substring
`import \x7b prisma`: when the (pattern-1-rewritten) content contains the
require pattern and that substring — e.g. via `import \x7b prismaMock \x7d` —
no singleton import is inserted while the require expression is still
replaced by `prisma`: the rewrite is exactly pattern 1, then the require
replacement, then blank-line normalization, with no insertion step. -/
theorem C10_raw_substring_check (content : List Char)
    (hg : PrismaImports.dbGuard content = false)
    (hreq : PrismaImports.hasRequire (PrismaImports.replaceFromPrisma content) = true)
    (himp : PrismaImports.hasPrismaImport (PrismaImports.replaceFromPrisma content) = true) :
    PrismaImports.rewrite
        (("import \x7b prismaMock \x7d from './mocks';\n\nconst client = new (require('@prisma/client').PrismaClient)() as PrismaClient;\n").toList) =
      (("import \x7b prismaMock \x7d from './mocks';\n\nconst client = prisma;\n").toList) ∧
    PrismaImports.rewrite content =
      Rw.collapseNl (PrismaImports.replaceRequireExpr
        (PrismaImports.replaceFromPrisma content)) := by
  refine ⟨by decide, ?_⟩
  rw [PrismaImports.prismaRewrite_noguard hg, PrismaImports.requireBlock_noinsert hreq himp]

/-- C10 witness: the concrete `prismaMock` input satisfies the
hypotheses and takes the no-insertion path. -/
theorem C10_witness :
    PrismaImports.rewrite
        (("import \x7b prismaMock \x7d from './mocks';\n\nconst client = new (require('@prisma/client').PrismaClient)() as PrismaClient;\n").toList) =
      Rw.collapseNl (PrismaImports.replaceRequireExpr (PrismaImports.replaceFromPrisma
        (("import \x7b prismaMock \x7d from './mocks';\n\nconst client = new (require('@prisma/client').PrismaClient)() as PrismaClient;\n").toList))) :=
  (C10_raw_substring_check
    (("import \x7b prismaMock \x7d from './mocks';\n\nconst client = new (require('@prisma/client').PrismaClient)() as PrismaClient;\n").toList)
    (by decide) (by decide) (by decide)).2

/-- C3 counterexample: with the mapped instantiation `const v = new
AuthUserService();` recorded, the input `v.v.m();` holds two occurrences
of `NAME.member` (`v.v` and, starting at its member, `v.m`).  The
non-overlapping scan of `re.sub` consumes `v.v` and never revisits the
second occurrence, so `v.m();` survives unrewritten in the output,
refuting "every occurrence ... is rewritten". -/
theorem C3_cex :
    LazyInit.var_to_service ("const v = new AuthUserService();\nv.v.m();\n".toList) =
      [("v".toList, "AuthUserService".toList)] ∧
    LazyInit.rewrite ("const v = new AuthUserService();\nv.v.m();\n".toList) =
      (("import \x7b getAuthUserService \x7d from '@/lib/services';\n\ngetAuthUserService().v.m();\n").toList) ∧
    Rw.containsStr ("v.m();".toList)
      (LazyInit.rewrite ("const v = new AuthUserService();\nv.v.m();\n".toList)) = true := by
  refine ⟨by decide, by decide, by decide⟩

/-- C3 (amended): for every input passing the guard with a mapped
instantiation, the inserted import statement (listing every used getter,
each recorded class's getter among them) is present in the output; and
the call-site pass is a single left-to-right non-overlapping scan: when
the text decomposes as `pre ++ NAME ++ '.' ++ member ++ rest` with no
match firing inside `pre`, a word boundary before `NAME`, and `member`
the maximal nonempty word run, the pass rewrites that occurrence to
`getter().member` and continues after the member.  Occurrences whose
`NAME` was consumed as the member of an earlier match are not rewritten
(see the counterexample). -/
theorem C3_call_site_rewrite (content v g pre m post : List Char)
    (h1 : LazyInit.lazyGuard content = false)
    (h2 : (LazyInit.var_to_service content).isEmpty = false)
    (hnf : Rw.noFireThrough (LazyInit.callStep v g) LazyInit.wordUpd false pre
      (v ++ '.' :: (m ++ post)) = true)
    (hb : pre.foldl LazyInit.wordUpd false = false) (hm : m ≠ [])
    (htw : (m ++ post).takeWhile Rw.isWordChar = m) :
    (Rw.containsStr
        (LazyInit.getter_import (LazyInit.sortDedup (LazyInit.used_getters content)))
        (LazyInit.rewrite content) = true ∧
      ∀ p ∈ LazyInit.var_to_service content, ∃ g2, LazyInit.lookupGetter p.2 = some g2 ∧
        g2 ∈ LazyInit.sortDedup (LazyInit.used_getters content)) ∧
    LazyInit.replaceCalls v g (pre ++ (v ++ '.' :: (m ++ post))) =
      pre ++ g ++ ("()".toList) ++ '.' :: m ++
        Rw.runScan (LazyInit.callStep v g) LazyInit.wordUpd true post :=
  ⟨⟨LazyInit.rewrite_contains_import h1 h2, fun _ hp => LazyInit.vts_getter_mem hp⟩,
    LazyInit.replaceCalls_decomp v g pre m post hnf hb hm htw⟩

/-- C3 witness: the decomposition applied to the concrete file
`const w = new AuthUserService();\nw.run();\n`, whose single call site
`w.run` is rewritten to `getAuthUserService().run`. -/
theorem C3_witness :
    Rw.containsStr
        (LazyInit.getter_import (LazyInit.sortDedup (LazyInit.used_getters
          (("const w = new AuthUserService();\nw.run();\n").toList))))
        (LazyInit.rewrite (("const w = new AuthUserService();\nw.run();\n").toList)) =
      true ∧
    LazyInit.replaceCalls ("w".toList) ("getAuthUserService".toList)
        ((("const w = new AuthUserService();\n").toList) ++ (("w".toList) ++ '.' ::
          (("run".toList) ++ ("();\n".toList)))) =
      (("const w = new AuthUserService();\n").toList) ++ ("getAuthUserService".toList) ++
        ("()".toList) ++ '.' :: ("run".toList) ++
        Rw.runScan (LazyInit.callStep ("w".toList) ("getAuthUserService".toList))
          LazyInit.wordUpd true (("();\n").toList) :=
  ⟨(C3_call_site_rewrite (("const w = new AuthUserService();\nw.run();\n").toList)
      ("w".toList) ("getAuthUserService".toList)
      (("const w = new AuthUserService();\n").toList) ("run".toList) ("();\n".toList)
      (by decide) (by decide) (by decide) (by decide) (by decide) (by decide)).1.1,
   (C3_call_site_rewrite (("const w = new AuthUserService();\nw.run();\n").toList)
      ("w".toList) ("getAuthUserService".toList)
      (("const w = new AuthUserService();\n").toList) ("run".toList) ("();\n".toList)
      (by decide) (by decide) (by decide) (by decide) (by decide) (by decide)).2⟩

/-- C4: the legacy-import-pruning replacement `remove_services` removes
exactly the names matching recorded service classes from the captured
name list: when nothing remains the whole statement is deleted (empty
replacement); otherwise the statement is re-emitted with the remaining
(stripped) names comma-joined, a sublist of the original name list in
their original relative order; a name is kept iff it is a name of the
list and not a recorded class. -/
theorem C4_import_pruning (toRemove : List (List Char)) (inner : List Char) :
    ((((LazyInit.splitComma inner).map LazyInit.strip).filter
        (fun n => !(toRemove.contains n))) = [] →
      LazyInit.remove_services toRemove inner = []) ∧
    ((((LazyInit.splitComma inner).map LazyInit.strip).filter
        (fun n => !(toRemove.contains n))) ≠ [] →
      LazyInit.remove_services toRemove inner =
        ("import \x7b ".toList) ++ Rw.joinSep (", ".toList)
          (((LazyInit.splitComma inner).map LazyInit.strip).filter
            (fun n => !(toRemove.contains n))) ++
          (" \x7d from '@midcurve/services';".toList)) ∧
    (((LazyInit.splitComma inner).map LazyInit.strip).filter
        (fun n => !(toRemove.contains n))).Sublist
      ((LazyInit.splitComma inner).map LazyInit.strip) ∧
    (∀ n, n ∈ (((LazyInit.splitComma inner).map LazyInit.strip).filter
        (fun n => !(toRemove.contains n))) ↔
      (n ∈ ((LazyInit.splitComma inner).map LazyInit.strip) ∧ ¬ n ∈ toRemove)) := by
  refine ⟨?_, ?_, List.filter_sublist _, ?_⟩
  · intro h
    unfold LazyInit.remove_services
    rw [if_pos (by rw [List.isEmpty_iff]; exact h)]
  · intro h
    unfold LazyInit.remove_services
    rw [if_neg (by simpa [List.isEmpty_iff] using h)]
  · intro n
    rw [List.mem_filter]
    simp

/-- C4 witness: pruning `AuthUserService` from the two-name list
` AuthUserService, Other ` keeps `Other`; pruning it from the singleton
list deletes the whole statement. -/
theorem C4_witness :
    LazyInit.remove_services [("AuthUserService".toList)]
        ((" AuthUserService, Other ").toList) =
      (("import \x7b Other \x7d from '@midcurve/services';").toList) ∧
    LazyInit.remove_services [("AuthUserService".toList)] ((" AuthUserService ").toList) =
      [] :=
  ⟨by
    have h := (C4_import_pruning [("AuthUserService".toList)]
      ((" AuthUserService, Other ").toList)).2.1 (by decide)
    rw [h]
    decide,
   (C4_import_pruning [("AuthUserService".toList)] ((" AuthUserService ").toList)).1
    (by decide)⟩

/-- C5: on every input passing the guard with a mapped instantiation, the
output is the post-pruning content with exactly one new line inserted:
the import statement listing all used getter names — the list is strictly
sorted (hence deduplicated) — inserted at the index one past the last
line of the post-pruning content that starts with the import keyword;
`lastImportIdx` indeed points one past the last import line, scanning
every line. -/
theorem C5_getter_import_insertion (content : List Char)
    (h1 : LazyInit.lazyGuard content = false)
    (h2 : (LazyInit.var_to_service content).isEmpty = false) :
    (LazyInit.rewrite content = Rw.collapseNl (Rw.joinNl (Rw.insertAt
        (Rw.lastImportIdx (Rw.splitNl (LazyInit.preInsert content)))
        (LazyInit.getter_import (LazyInit.sortDedup (LazyInit.used_getters content)))
        (Rw.splitNl (LazyInit.preInsert content))))) ∧
    List.Chain' (fun a b => LazyInit.lexLt a b = true)
      (LazyInit.sortDedup (LazyInit.used_getters content)) ∧
    (∀ lines : List (List Char),
      (∀ j, Rw.lastImportIdx lines ≤ j → j < lines.length →
        Rw.isImportLine (lines.getD j []) = false) ∧
      (Rw.lastImportIdx lines = 0 ∨
        (0 < Rw.lastImportIdx lines ∧ Rw.lastImportIdx lines ≤ lines.length ∧
          Rw.isImportLine (lines.getD (Rw.lastImportIdx lines - 1) []) = true))) := by
  refine ⟨?_, LazyInit.chain1_sortDedup _, fun lines => Rw.lastImportIdx_spec lines⟩
  rw [LazyInit.rewrite_processing h1 h2]
  rfl

/-- C5 witness: the insertion shape at a concrete input. -/
theorem C5_witness :
    LazyInit.rewrite (("const w = new AuthUserService();\nw.run();\n").toList) =
      Rw.collapseNl (Rw.joinNl (Rw.insertAt
        (Rw.lastImportIdx (Rw.splitNl (LazyInit.preInsert
          (("const w = new AuthUserService();\nw.run();\n").toList))))
        (LazyInit.getter_import (LazyInit.sortDedup (LazyInit.used_getters
          (("const w = new AuthUserService();\nw.run();\n").toList))))
        (Rw.splitNl (LazyInit.preInsert
          (("const w = new AuthUserService();\nw.run();\n").toList))))) :=
  (C5_getter_import_insertion (("const w = new AuthUserService();\nw.run();\n").toList)
    (by decide) (by decide)).1

/-- C6: the ORM rewrite on Example 4's input produces exactly Example 4's
output; in general, on inputs passing the guard that contain the
require pattern and no `import \x7b prisma` substring, the rewrite inserts
the singleton import line at the index one past the last import line of
the pattern-1-rewritten content and then replaces the require
expressions, the inserted line is present in the final output, and the
replacement turns the exact require expression (either quoting style)
into the bare reference `prisma`. -/
theorem C6_require_migration (content a b : List Char) (q1 q2 : Char)
    (hg : PrismaImports.dbGuard content = false)
    (hreq : PrismaImports.hasRequire (PrismaImports.replaceFromPrisma content) = true)
    (himp : PrismaImports.hasPrismaImport (PrismaImports.replaceFromPrisma content) = false)
    (hq1 : PrismaImports.isQuote q1 = true) (hq2 : PrismaImports.isQuote q2 = true)
    (hnf : Rw.noFireThrough PrismaImports.reqStep Rw.unitUpd () a
      (PrismaImports.reqMatchText q1 q2 ++ b) = true) :
    PrismaImports.rewrite
        (("import \x7b Foo \x7d from './foo';\n\nconst client = new (require('@prisma/client').PrismaClient)() as PrismaClient;\n").toList) =
      (("import \x7b Foo \x7d from './foo';\nimport \x7b prisma \x7d from '@midcurve/database';\n\nconst client = prisma;\n").toList) ∧
    PrismaImports.rewrite content = Rw.collapseNl (PrismaImports.replaceRequireExpr
      (Rw.joinNl (Rw.insertAt
        (Rw.lastImportIdx (Rw.splitNl (PrismaImports.replaceFromPrisma content)))
        PrismaImports.prismaImportLine
        (Rw.splitNl (PrismaImports.replaceFromPrisma content))))) ∧
    Rw.containsStr PrismaImports.prismaImportLine (PrismaImports.rewrite content) = true ∧
    PrismaImports.replaceRequireExpr (a ++ (PrismaImports.reqMatchText q1 q2 ++ b)) =
      a ++ ("prisma".toList) ++ PrismaImports.replaceRequireExpr b := by
  refine ⟨by decide, ?_, PrismaImports.prismaRewrite_inserted_line hg hreq himp,
    PrismaImports.replaceReq_decomp a b hq1 hq2 hnf⟩
  rw [PrismaImports.prismaRewrite_noguard hg, PrismaImports.requireBlock_insert hreq himp]
  rfl

/-- C6 witness: Example 4's input satisfies the hypotheses; the inserted
line is in its output, and a concrete require expression is replaced. -/
theorem C6_witness :
    Rw.containsStr PrismaImports.prismaImportLine (PrismaImports.rewrite
        (("import \x7b Foo \x7d from './foo';\n\nconst client = new (require('@prisma/client').PrismaClient)() as PrismaClient;\n").toList)) =
      true ∧
    PrismaImports.replaceRequireExpr ((("const client = ").toList) ++
        (PrismaImports.reqMatchText '\'' '\'' ++ (";\n".toList))) =
      (("const client = ").toList) ++ ("prisma".toList) ++
        PrismaImports.replaceRequireExpr (";\n".toList) :=
  ⟨(C6_require_migration
      (("import \x7b Foo \x7d from './foo';\n\nconst client = new (require('@prisma/client').PrismaClient)() as PrismaClient;\n").toList)
      (("const client = ").toList) (";\n".toList) '\'' '\''
      (by decide) (by decide) (by decide) (by decide) (by decide) (by decide)).2.2.1,
   (C6_require_migration
      (("import \x7b Foo \x7d from './foo';\n\nconst client = new (require('@prisma/client').PrismaClient)() as PrismaClient;\n").toList)
      (("const client = ").toList) (";\n".toList) '\'' '\''
      (by decide) (by decide) (by decide) (by decide) (by decide) (by decide)).2.2.2⟩

/-- C7: the ORM rewrite on Example 3's input produces exactly Example 3's
output, and in general the pattern-1 pass rewrites an occurrence of
`from <quote>@prisma/client<quote>` (either quoting style, the two quotes
independent) to `from '@midcurve/database'` — normalized to single
quotes — leaving the text before it (where no match fires) and the
scanned rest unchanged otherwise. -/
theorem C7_import_path_rewrite (a b : List Char) (q1 q2 : Char)
    (hq1 : PrismaImports.isQuote q1 = true) (hq2 : PrismaImports.isQuote q2 = true)
    (hnf : Rw.noFireThrough PrismaImports.fromStep Rw.unitUpd () a
      (PrismaImports.fromMatchText q1 q2 ++ b) = true) :
    PrismaImports.rewrite
        (("import \x7b PrismaClient \x7d from '@prisma/client';\n").toList) =
      (("import \x7b PrismaClient \x7d from '@midcurve/database';\n").toList) ∧
    PrismaImports.replaceFromPrisma (a ++ (PrismaImports.fromMatchText q1 q2 ++ b)) =
      a ++ ("from '@midcurve/database'".toList) ++ PrismaImports.replaceFromPrisma b :=
  ⟨by decide, PrismaImports.replaceFrom_decomp a b hq1 hq2 hnf⟩

/-- C7 witness: Example 3 as a decomposition instance. -/
theorem C7_witness :
    PrismaImports.replaceFromPrisma ((("import \x7b PrismaClient \x7d ").toList) ++
        (PrismaImports.fromMatchText '\'' '\'' ++ (";\n".toList))) =
      (("import \x7b PrismaClient \x7d ").toList) ++ ("from '@midcurve/database'".toList) ++
        PrismaImports.replaceFromPrisma (";\n".toList) :=
  (C7_import_path_rewrite (("import \x7b PrismaClient \x7d ").toList) (";\n".toList)
    '\'' '\'' (by decide) (by decide) (by decide)).2

/-- C8: every input that reaches the normalization step of either engine
(passes the guard, and for the lazy-init engine has a mapped
instantiation) produces an output with no run of three consecutive
newlines — hence no run of two or more blank lines, in particular none of
three or more; and the normalization maps any run of `n ≥ 3` newlines
(two or more blank lines) at the head of a region to exactly two
newlines, one blank line. -/
theorem C8_blank_line_normalization (c d b : List Char) (n : Nat)
    (h1 : LazyInit.lazyGuard c = false)
    (h2 : (LazyInit.var_to_service c).isEmpty = false)
    (hg : PrismaImports.dbGuard d = false) (hn : 3 ≤ n) :
    Rw.containsStr ['\n', '\n', '\n'] (LazyInit.rewrite c) = false ∧
    Rw.containsStr ['\n', '\n', '\n'] (PrismaImports.rewrite d) = false ∧
    Rw.collapseNl (List.replicate n '\n' ++ b) =
      '\n' :: '\n' :: Rw.collapseNl (b.dropWhile (fun x => x == '\n')) := by
  refine ⟨?_, ?_, Rw.collapseNl_run hn b⟩
  · rw [LazyInit.rewrite_processing h1 h2]
    exact Rw.collapseNl_no_nl3 _
  · rw [PrismaImports.prismaRewrite_noguard hg]
    exact Rw.collapseNl_no_nl3 _

/-- C8 witness: concrete inputs for both engines and a concrete
newline run. -/
theorem C8_witness :
    Rw.containsStr ['\n', '\n', '\n']
      (LazyInit.rewrite (("const a = new AuthUserService();\na.m();\n").toList)) = false ∧
    Rw.containsStr ['\n', '\n', '\n']
      (PrismaImports.rewrite (("x\n\n\n\n\ny from '@prisma/client'\n").toList)) = false ∧
    Rw.collapseNl (List.replicate 4 '\n' ++ ("z".toList)) =
      '\n' :: '\n' :: Rw.collapseNl (("z".toList).dropWhile (fun x => x == '\n')) :=
  ⟨(C8_blank_line_normalization (("const a = new AuthUserService();\na.m();\n").toList)
      (("x\n\n\n\n\ny from '@prisma/client'\n").toList) ("z".toList) 4
      (by decide) (by decide) (by decide) (by decide)).1,
   (C8_blank_line_normalization (("const a = new AuthUserService();\na.m();\n").toList)
      (("x\n\n\n\n\ny from '@prisma/client'\n").toList) ("z".toList) 4
      (by decide) (by decide) (by decide) (by decide)).2.1,
   (C8_blank_line_normalization (("const a = new AuthUserService();\na.m();\n").toList)
      (("x\n\n\n\n\ny from '@prisma/client'\n").toList) ("z".toList) 4
      (by decide) (by decide) (by decide) (by decide)).2.2⟩
